import Mathlib

/-!
Verification development for the sslly-nginx reverse-proxy supervisor.

Go code is shallowly embedded: Go strings are lists of characters
(`GoStr`), Go maps are association lists whose list order stands for the
(unspecified) iteration order of the map, `time.Time` values compared with
`After` are natural numbers, and filesystem state is an association list
from paths (segment lists) to file contents.  Fallible steps are modelled
with `Except`/`Option` or with explicit outcome oracles.
-/

namespace SsllyNginx

/-- Go strings, modelled as lists of characters (Go compares strings
bytewise; on the inputs considered here bytewise UTF-8 order coincides
with codepoint order). -/
abbrev GoStr := List Char

/-- Shorthand for turning a Lean string literal into a `GoStr`. -/
def gs (s : String) : GoStr := s.toList

/-- `strings.Index(s, c)` for a single-character separator: index of the
first occurrence, `none` when absent (Go returns -1). -/
def goIndex (s : GoStr) (c : Char) : Option Nat :=
  s.findIdx? (· = c)

/-- `strings.LastIndex(s, c)` for a single character. -/
def goLastIndex (s : GoStr) (c : Char) : Option Nat :=
  (goIndex s.reverse c).map (fun i => s.length - 1 - i)

/-- `strings.TrimSuffix(key, ":")`: drops one trailing colon when present. -/
def goTrimSuffixColon (s : GoStr) : GoStr :=
  if s.getLast? = some ':' then s.dropLast else s

/-- The `isNumeric` helper of the config package: every byte is an ASCII
digit and the string is non-empty. -/
def isNumeric (s : GoStr) : Bool :=
  s.all (fun c => decide ('0' ≤ c) && decide (c ≤ '9')) && !s.isEmpty

/-- `config.Upstream`: the structured result of parsing a mapping key. -/
structure Upstream where
  Scheme : GoStr
  Host : GoStr
  Port : GoStr
  Path : GoStr
deriving DecidableEq

/-- The bracketed-IPv6 arm of `ParseUpstream` (`[HOST]:PORT`): fires when
the key starts with `[`, has a `]` closer at position `cb` with
`0 < cb < len-1`, and the byte after the closer is `:`. -/
def bracketSplit (scheme path key : GoStr) : Option Upstream :=
  if key.head? = some '[' then
    match goIndex key ']' with
    | some cb =>
      if 0 < cb ∧ cb < key.length - 1 ∧ key.get? (cb + 1) = some ':' then
        some ⟨scheme, (key.drop 1).take (cb - 1), key.drop (cb + 2), path⟩
      else none
    | none => none
  else none

/-- The body of `ParseUpstream` after the trailing-colon / `[https]` /
path splits: try the bracketed-IPv6 arm; otherwise split host from port
at the last `:` (with the defensive plain-port cases for an empty host or
more than one colon); purely numeric input is a port on 127.0.0.1;
anything else is a hostname with the scheme default port. -/
def parseUpstreamCore (scheme key path : GoStr) : Upstream :=
  match bracketSplit scheme path key with
  | some u => u
  | none =>
    if key.contains ':' then
      let lastColon := (goLastIndex key ':').getD 0
      let host := key.take lastColon
      let port := key.drop (lastColon + 1)
      if (host = [] ∨ port.contains ':' = true) ∧ key.count ':' > 1 then
        ⟨scheme, gs "127.0.0.1", key, path⟩
      else if (host = [] ∨ port.contains ':' = true) ∧ host = [] then
        ⟨scheme, gs "127.0.0.1", port, path⟩
      else
        ⟨scheme, host, port, path⟩
    else if isNumeric key then
      ⟨scheme, gs "127.0.0.1", key, path⟩
    else
      let defaultPort := if scheme = gs "https" then gs "443" else gs "80"
      ⟨scheme, key, defaultPort, path⟩

/-- `config.ParseUpstream`, translated clause by clause from the source:
strip one trailing `:`; consume a `[https]` prefix; split the path at the
first `/` whose index is positive; then `parseUpstreamCore`. -/
def parseUpstream (key0 : GoStr) : Upstream :=
  let key1 := goTrimSuffixColon key0
  let hasHttps := (gs "[https]").isPrefixOf key1
  let scheme := if hasHttps then gs "https" else gs "http"
  let key2 := if hasHttps then key1.drop 7 else key1
  match goIndex key2 '/' with
  | some i =>
    if 0 < i then parseUpstreamCore scheme (key2.take i) (key2.drop i)
    else parseUpstreamCore scheme key2 []
  | none => parseUpstreamCore scheme key2 []

/-- `config.CORSConfig`. -/
structure CORSConfig where
  AllowOrigin : String
  AllowMethods : List String
  AllowHeaders : List String
  ExposeHeaders : List String
  MaxAge : Int
  AllowCredentials : Bool
deriving DecidableEq

/-- Lookup in a Go `map[string]CORSConfig`, modelled as an association
list with distinct keys. -/
def corsLookup (m : List (String × CORSConfig)) (k : String) : Option CORSConfig :=
  (m.find? (·.1 = k)).map (·.2)

/-- `nginx.getCORSConfig`, translated from the source: the wildcard `*`
entry is consulted first, the exact-domain entry only when no wildcard
entry exists; `none` stands for the Go `nil` (built-in default headers). -/
def getCORSConfig (cors : List (String × CORSConfig)) (domain : String) : Option CORSConfig :=
  match corsLookup cors "*" with
  | some c => some c
  | none =>
    match corsLookup cors domain with
    | some c => some c
    | none => none

/-- The `[https]`-prefix stripping step of `ParseUpstream`, in isolation. -/
def stripHttpsPrefix (k : GoStr) : GoStr :=
  if (gs "[https]").isPrefixOf k then k.drop 7 else k

/-- The path-splitting rule the parser actually uses: the suffix starting
at the first `/` whose index is positive, else empty. -/
def firstSlashPath (k : GoStr) : GoStr :=
  match goIndex k '/' with
  | some i => if 0 < i then k.drop i else []
  | none => []

/-- Modelled from the spec: the path-splitting rule as the spec words it,
"the last `/` (if past the first character) splits off an optional path
suffix". -/
def lastSlashPath (k : GoStr) : GoStr :=
  match goLastIndex k '/' with
  | some i => if 0 < i then k.drop i else []
  | none => []

theorem bracketSplit_some {scheme path key : GoStr} {u : Upstream}
    (h : bracketSplit scheme path key = some u) :
    u.Scheme = scheme ∧ u.Path = path := by
  unfold bracketSplit at h
  split at h
  · split at h
    · split at h
      · simp only [Option.some.injEq] at h
        subst h; exact ⟨rfl, rfl⟩
      · cases h
    · cases h
  · cases h

theorem parseUpstreamCore_path (scheme key path : GoStr) :
    (parseUpstreamCore scheme key path).Path = path := by
  simp only [parseUpstreamCore]
  split
  · next u h => exact (bracketSplit_some h).2
  · split
    · split
      · rfl
      · split <;> rfl
    · split <;> rfl

theorem parseUpstreamCore_scheme (scheme key path : GoStr) :
    (parseUpstreamCore scheme key path).Scheme = scheme := by
  simp only [parseUpstreamCore]
  split
  · next u h => exact (bracketSplit_some h).1
  · split
    · split
      · rfl
      · split <;> rfl
    · split <;> rfl

/-- C8 (counterexample): on `"host:80/a/b"` the parser's path component is
`"/a/b"` — everything from the first slash — while splitting at the last
slash, as the claim states, would give `"/b"`. -/
theorem parseUpstream_first_slash_cex :
    (parseUpstream (gs "host:80/a/b")).Path = gs "/a/b" ∧
      lastSlashPath (gs "host:80/a/b") = gs "/b" ∧ gs "/a/b" ≠ gs "/b" := by
  decide

theorem parseUpstream_path_aux (scheme key2 : GoStr) :
    (match goIndex key2 '/' with
     | some i =>
       if 0 < i then parseUpstreamCore scheme (key2.take i) (key2.drop i)
       else parseUpstreamCore scheme key2 []
     | none => parseUpstreamCore scheme key2 []).Path = firstSlashPath key2 := by
  unfold firstSlashPath
  rcases h : goIndex key2 '/' with - | i <;>
    simp only [h, parseUpstreamCore_path]
  split <;> simp [parseUpstreamCore_path]

theorem parseUpstream_scheme_aux (scheme key2 : GoStr) :
    (match goIndex key2 '/' with
     | some i =>
       if 0 < i then parseUpstreamCore scheme (key2.take i) (key2.drop i)
       else parseUpstreamCore scheme key2 []
     | none => parseUpstreamCore scheme key2 []).Scheme = scheme := by
  rcases h : goIndex key2 '/' with - | i <;>
    simp only [h, parseUpstreamCore_scheme]
  split <;> simp [parseUpstreamCore_scheme]

/-- C8 (amended): for every mapping key, after stripping one trailing `:`
and a `[https]` prefix, the parser splits off the path suffix at the
FIRST `/` that is past the first character (not the last). -/
theorem parseUpstream_path_eq_first_slash (key0 : GoStr) :
    (parseUpstream key0).Path =
      firstSlashPath (stripHttpsPrefix (goTrimSuffixColon key0)) :=
  parseUpstream_path_aux
    (if ((gs "[https]").isPrefixOf (goTrimSuffixColon key0)) = true then gs "https"
      else gs "http")
    (if ((gs "[https]").isPrefixOf (goTrimSuffixColon key0)) = true then
      (goTrimSuffixColon key0).drop 7
      else goTrimSuffixColon key0)

/-- C7 (counterexample): at the inputs named by the claim — the empty
string, a lone `:`, `[https]` alone, and `[]:80` — the parser returns an
EMPTY host, so the "host non-empty" part of the claim fails (and `"a::"`
shows the port can be empty as well). -/
theorem parseUpstream_empty_host_cex :
    (parseUpstream (gs "")).Host = [] ∧
      (parseUpstream (gs ":")).Host = [] ∧
      (parseUpstream (gs "[https]")).Host = [] ∧
      (parseUpstream (gs "[]:80")).Host = [] ∧
      (parseUpstream (gs "a::")).Port = [] := by
  decide

/-- C7 (amended): the parser is total — every string yields a structurally
complete `Upstream` whose scheme is `"http"` or `"https"` — but the host
and port components can be empty on degenerate inputs. -/
theorem parseUpstream_scheme_total (key0 : GoStr) :
    (parseUpstream key0).Scheme = gs "http" ∨
      (parseUpstream key0).Scheme = gs "https" := by
  have h : (parseUpstream key0).Scheme =
      (if ((gs "[https]").isPrefixOf (goTrimSuffixColon key0)) = true then gs "https"
        else gs "http") :=
    parseUpstream_scheme_aux
      (if ((gs "[https]").isPrefixOf (goTrimSuffixColon key0)) = true then gs "https"
        else gs "http")
      (if ((gs "[https]").isPrefixOf (goTrimSuffixColon key0)) = true then
        (goTrimSuffixColon key0).drop 7
        else goTrimSuffixColon key0)
  rw [h]
  split
  · right; rfl
  · left; rfl

/-- The concrete CORS table of the failing input: a wildcard default plus
a per-domain entry for `api.example.com` (mirroring the repository's own
CORS documentation example). -/
def corsStarEntry : CORSConfig := ⟨"*", ["GET", "POST", "OPTIONS"], [], [], 0, false⟩

def corsApiEntry : CORSConfig :=
  ⟨"https://app.example.com", ["GET", "POST", "PUT", "DELETE", "OPTIONS"],
    ["Content-Type", "Authorization"], [], 0, true⟩

def corsTableEx : List (String × CORSConfig) :=
  [("*", corsStarEntry), ("api.example.com", corsApiEntry)]

/-- C6 (code evaluated at the failing input): with both a `*` entry and an
exact entry for `api.example.com` present, `getCORSConfig` returns the
WILDCARD entry, not the exact-host entry — the per-domain configuration is
unreachable whenever a wildcard entry exists, contradicting the documented
per-domain override. -/
theorem getCORSConfig_wildcard_shadows_exact :
    getCORSConfig corsTableEx "api.example.com" = some corsStarEntry ∧
      corsStarEntry ≠ corsApiEntry := by
  decide

/-! ## Backup manager (`internal/backup`) -/

/-- The persisted `backup.state` record (`state.json`). -/
structure BState where
  LastGood : String
  InProgress : String
  LastGoodAt : String
  InProgressAt : String
deriving DecidableEq

/-- Outcome of one `copyDir`/`copyFile` call inside `Commit`: success,
an `os.IsNotExist` error, or any other error. -/
inductive CopyOutcome
  | ok
  | errNotExist
  | errOther
deriving DecidableEq

/-- Oracle for the fallible filesystem steps of `Commit`. -/
structure CommitEnv where
  copyConfigs : CopyOutcome
  copySsl : CopyOutcome
  copyRuntime : CopyOutcome
  copyNginxConf : CopyOutcome
  hasNginxConfPath : Bool
  writeStateOk : Bool
deriving DecidableEq

/-- `backup.Manager.Commit`, as a transformer of the persisted state:
mirrors the source order — require `in_progress == id`; copy configs and
ssl (any error fatal); copy runtime and nginx.conf (only a non-NotExist
error is fatal; the conf copy runs only when a conf path is configured);
then promote `last_good` and clear `in_progress`.  The pair is (returned
result, state persisted on disk afterwards); a failed atomic state write
leaves the old state persisted. -/
def commitStep (st : BState) (id now : String) (env : CommitEnv) :
    Except String Unit × BState :=
  if st.InProgress ≠ id then (.error "snapshot is not in progress", st)
  else if env.copyConfigs ≠ .ok then (.error "copy configs", st)
  else if env.copySsl ≠ .ok then (.error "copy ssl", st)
  else if env.copyRuntime = .errOther then (.error "copy runtime", st)
  else if env.hasNginxConfPath = true ∧ env.copyNginxConf = .errOther then
    (.error "copy nginx conf", st)
  else if env.writeStateOk then (.ok (), ⟨id, "", now, ""⟩)
  else (.error "write state", st)

/-- C2: `Commit(id)` on the backup manager: when the persisted
`in_progress` marker differs from `id`, it errors and the persisted state
is unchanged; when it succeeds, the persisted state has `last_good == id`
and an empty `in_progress`. -/
theorem commit_marker_semantics (st : BState) (id now : String) (env : CommitEnv) :
    (st.InProgress ≠ id →
      (∃ e, (commitStep st id now env).1 = .error e) ∧
        (commitStep st id now env).2 = st) ∧
    ((commitStep st id now env).1 = .ok () →
      (commitStep st id now env).2.LastGood = id ∧
        (commitStep st id now env).2.InProgress = "") := by
  constructor
  · intro h
    refine ⟨⟨"snapshot is not in progress", ?_⟩, ?_⟩ <;>
      · unfold commitStep
        rw [if_pos h]
  · intro hok
    unfold commitStep at hok ⊢
    repeat' split
    all_goals simp_all

/-- Witness for C2 at concrete inputs: a mismatched marker errors and
preserves the state; a matched marker with successful copies promotes. -/
theorem commit_marker_semantics_witness :
    ((∃ e, (commitStep ⟨"old", "other", "", ""⟩ "id1" "t"
        ⟨.ok, .ok, .ok, .ok, true, true⟩).1 = .error e) ∧
      (commitStep ⟨"old", "other", "", ""⟩ "id1" "t"
        ⟨.ok, .ok, .ok, .ok, true, true⟩).2 = ⟨"old", "other", "", ""⟩) ∧
    ((commitStep ⟨"old", "id1", "", ""⟩ "id1" "t"
        ⟨.ok, .ok, .ok, .ok, true, true⟩).2.LastGood = "id1" ∧
      (commitStep ⟨"old", "id1", "", ""⟩ "id1" "t"
        ⟨.ok, .ok, .ok, .ok, true, true⟩).2.InProgress = "") :=
  ⟨(commit_marker_semantics ⟨"old", "other", "", ""⟩ "id1" "t"
      ⟨.ok, .ok, .ok, .ok, true, true⟩).1 (by decide),
    (commit_marker_semantics ⟨"old", "id1", "", ""⟩ "id1" "t"
      ⟨.ok, .ok, .ok, .ok, true, true⟩).2 rfl⟩

/-! ## Filesystem model for restore (`RestoreLastGood`) -/

/-- A filesystem path, as a list of segments. -/
abbrev FPath := List String

/-- A filesystem: an association list from file paths to contents; the
first binding for a path is its content. -/
abbrev FileSys := List (FPath × String)

def fsLookup (fs : FileSys) (p : FPath) : Option String :=
  (fs.find? (·.1 = p)).map (·.2)

/-- `backup.replaceDirContents` (with the `keepNames` filter `nil`, as at
its only call site): remove every file under `dstDir`, then copy the tree
under `srcDir` (when present) to `dstDir`. -/
def replaceDirContents (dstDir srcDir : FPath) (fs : FileSys) : FileSys :=
  (fs.filter (fun e => !(dstDir.isPrefixOf e.1))) ++
    (fs.filterMap (fun e =>
      if srcDir.isPrefixOf e.1 then
        some (dstDir ++ e.1.drop srcDir.length, e.2)
      else none))

/-- `backup.copyFile`, tolerant of a missing source (the restore path
ignores `os.IsNotExist`): overwrite `dst` with the content of `src`. -/
def copyFileFS (src dst : FPath) (fs : FileSys) : FileSys :=
  match fsLookup fs src with
  | some c => (dst, c) :: fs.filter (fun e => !(decide (e.1 = dst)))
  | none => fs

/-- The directory layout a `backup.Manager` is constructed with. -/
structure BackupPaths where
  backupRoot : FPath
  runtimeDir : FPath
  nginxConf : FPath
deriving DecidableEq

def snapshotPath (bp : BackupPaths) (id : String) : FPath :=
  bp.backupRoot ++ ["snapshots", id]

/-- `backup.Manager.restoreSnapshotLocked`: replace only the runtime
cache directory from the snapshot's `runtime/` subtree, then overwrite
the rendered proxy config (when a conf path is configured). -/
def restoreSnapshotLocked (bp : BackupPaths) (id : String) (fs : FileSys) : FileSys :=
  let snapDir := snapshotPath bp id
  let fs1 := replaceDirContents bp.runtimeDir (snapDir ++ ["runtime"]) fs
  if bp.nginxConf ≠ [] then
    copyFileFS (snapDir ++ ["nginx", "nginx.conf"]) bp.nginxConf fs1
  else fs1

/-- `backup.Manager.RestoreLastGood`: requires a recorded `last_good`
snapshot, then restores it. -/
def restoreLastGood (bp : BackupPaths) (st : BState) (fs : FileSys) :
    Except String FileSys :=
  if st.LastGood = "" then .error "no last-good snapshot available"
  else .ok (restoreSnapshotLocked bp st.LastGood fs)

theorem fsLookup_cons_of_ne {e : FPath × String} {fs : FileSys} {p : FPath}
    (h : ¬ e.1 = p) : fsLookup (e :: fs) p = fsLookup fs p := by
  unfold fsLookup
  rw [List.find?_cons_of_neg _ (by simpa using h)]

theorem fsLookup_cons_self {e : FPath × String} {fs : FileSys} {p : FPath}
    (h : e.1 = p) : fsLookup (e :: fs) p = some e.2 := by
  unfold fsLookup
  rw [List.find?_cons_of_pos _ (by simpa using h)]
  rfl

theorem fsLookup_filter_frame {q : FPath × String → Bool} (fs : FileSys) (p : FPath)
    (hq : ∀ e : FPath × String, e.1 = p → q e = true) :
    fsLookup (fs.filter q) p = fsLookup fs p := by
  induction fs with
  | nil => rfl
  | cons e fs ih =>
    by_cases he : e.1 = p
    · rw [List.filter_cons, if_pos (hq e he), fsLookup_cons_self he,
        fsLookup_cons_self he]
    · rw [List.filter_cons]
      cases hqe : q e
      · rw [if_neg (by simp [hqe]), ih, fsLookup_cons_of_ne he]
      · rw [if_pos rfl, fsLookup_cons_of_ne he, fsLookup_cons_of_ne he, ih]

theorem isPrefixOf_append_self (l t : List String) :
    l.isPrefixOf (l ++ t) = true := by
  induction l with
  | nil => simp [List.isPrefixOf]
  | cons a l ih => simp [List.isPrefixOf, ih]

theorem fsLookup_filterMap_under {dst src : FPath} (fs : FileSys) {p : FPath}
    (hp : dst.isPrefixOf p = false) :
    fsLookup (fs.filterMap (fun e =>
      if src.isPrefixOf e.1 then
        some (dst ++ e.1.drop src.length, e.2)
      else none)) p = none := by
  unfold fsLookup
  have hfind : List.find? (fun x => decide (x.1 = p)) (fs.filterMap (fun e =>
      if src.isPrefixOf e.1 then
        some (dst ++ e.1.drop src.length, e.2)
      else none)) = none := by
    rw [List.find?_eq_none]
    intro x hx
    rcases List.mem_filterMap.mp hx with ⟨e, -, he⟩
    revert he
    split
    · intro he
      cases he
      simp only [decide_eq_true_eq]
      intro hxp
      have hpre : dst.isPrefixOf p = true := by
        rw [← hxp]
        exact isPrefixOf_append_self dst _
      rw [hpre] at hp
      cases hp
    · intro he
      cases he
  rw [hfind]
  rfl

theorem fsLookup_append (l₁ l₂ : FileSys) (p : FPath) :
    fsLookup (l₁ ++ l₂) p =
      match fsLookup l₁ p with
      | some c => some c
      | none => fsLookup l₂ p := by
  induction l₁ with
  | nil => rfl
  | cons e l₁ ih =>
    by_cases he : e.1 = p
    · rw [List.cons_append, fsLookup_cons_self he, fsLookup_cons_self he]
    · rw [List.cons_append, fsLookup_cons_of_ne he, fsLookup_cons_of_ne he, ih]

theorem replaceDirContents_frame {dst src : FPath} (fs : FileSys) {p : FPath}
    (hp : dst.isPrefixOf p = false) :
    fsLookup (replaceDirContents dst src fs) p = fsLookup fs p := by
  unfold replaceDirContents
  rw [fsLookup_append,
    fsLookup_filter_frame fs p (fun e he => by
      have : dst.isPrefixOf e.1 = false := he ▸ hp
      simp [this]),
    fsLookup_filterMap_under fs hp]
  cases fsLookup fs p <;> rfl

/-- C3: a succeeding `RestoreLastGood` writes only under the runtime
cache directory and at the rendered proxy config path: every other path
has unchanged content; in particular nothing under the user-owned
`configs/` and `ssl/` trees (which are disjoint from both) is written. -/
theorem restoreLastGood_frame (bp : BackupPaths) (st : BState) (fs fs' : FileSys)
    (hok : restoreLastGood bp st fs = .ok fs') :
    ∀ p : FPath, bp.runtimeDir.isPrefixOf p = false → p ≠ bp.nginxConf →
      fsLookup fs' p = fsLookup fs p := by
  intro p hrt hnc
  unfold restoreLastGood at hok
  split at hok
  · cases hok
  · cases hok
    simp only [restoreSnapshotLocked]
    split
    · unfold copyFileFS
      split
      · next c hc =>
        rw [fsLookup_cons_of_ne (fun h => hnc (Eq.symm h)),
          fsLookup_filter_frame _ p (fun e he => by
            have hne : ¬(e.1 = bp.nginxConf) := fun h => hnc (he ▸ h)
            simp [hne]),
          replaceDirContents_frame fs hrt]
      · exact replaceDirContents_frame fs hrt
    · exact replaceDirContents_frame fs hrt

/-- Concrete layout and filesystem for the C3 witness. -/
def bpEx : BackupPaths :=
  ⟨["cfg", ".sslly-backups"], ["cfg", ".sslly-runtime"],
    ["etc", "nginx", "nginx.conf"]⟩

def fsEx : FileSys :=
  [(["cfg", "proxy.yaml"], "P"), (["ssl", "a.pem"], "C"),
    (["cfg", ".sslly-runtime", "current", "x"], "old"),
    (["cfg", ".sslly-backups", "snapshots", "s1", "runtime", "current", "x"], "new")]

/-- Witness for C3 at a concrete filesystem: restoring `last_good = s1`
leaves the file under `configs/` and the file under `ssl/` untouched. -/
theorem restoreLastGood_frame_witness :
    fsLookup (restoreSnapshotLocked bpEx "s1" fsEx) ["cfg", "proxy.yaml"] =
        fsLookup fsEx ["cfg", "proxy.yaml"] ∧
      fsLookup (restoreSnapshotLocked bpEx "s1" fsEx) ["ssl", "a.pem"] =
        fsLookup fsEx ["ssl", "a.pem"] := by
  have hok : restoreLastGood bpEx ⟨"s1", "", "", ""⟩ fsEx =
      .ok (restoreSnapshotLocked bpEx "s1" fsEx) := by
    unfold restoreLastGood
    rw [if_neg (by decide)]
  exact ⟨restoreLastGood_frame bpEx ⟨"s1", "", "", ""⟩ fsEx _ hok
      ["cfg", "proxy.yaml"] (by decide) (by decide),
    restoreLastGood_frame bpEx ⟨"s1", "", "", ""⟩ fsEx _ hok
      ["ssl", "a.pem"] (by decide) (by decide)⟩

/-! ## Reload orchestration (`internal/app/reload.go`, `app.go`) -/

/-- An operation on the backup manager, as observed in a reload trace. -/
inductive BackupOp
  | opBegin
  | abort (id : String)
  | commit (id : String)
  | restore
deriving DecidableEq

/-- Outcome oracle for one execution of the reload pipeline.  `beginRes`
is `some id` when `Begin()` succeeds (the source id is a UTC timestamp,
never empty); the Booleans are the outcomes of the fallible steps of
`App.reload` and of the proxy steps, in source order. -/
structure ReloadEnv where
  beginRes : Option String
  loadOk : Bool
  staticOk : Bool
  scanOk : Bool
  stageOk : Bool
  writeRuntimeConfOk : Bool
  activateOk : Bool
  writeConfOk : Bool
  nginxReloadOk : Bool
  healthOk : Bool
deriving DecidableEq

/-- `App.reload` succeeds iff every one of its steps (load config,
prepare static sites, scan certificates, stage runtime certificates,
write the runtime nginx.conf, activate the snapshot, write nginx.conf)
succeeds; the first failure aborts the remainder. -/
def reloadOk (e : ReloadEnv) : Bool :=
  e.loadOk && e.staticOk && e.scanOk && e.stageOk && e.writeRuntimeConfOk &&
    e.activateOk && e.writeConfOk

/-- `App.handleReload`: the sequence of backup-manager operations it
performs.  `Begin` runs first (a failure leaves `snapID` empty); a
failure of `reload`, of `nginx.Reload`, or of `CheckHealth` aborts the
snapshot (when one was begun) and restores the last good configuration;
only when all three succeed is `Commit` called for the begun id. -/
def handleReloadTrace (e : ReloadEnv) : List BackupOp :=
  let snapID := e.beginRes.getD ""
  [BackupOp.opBegin] ++
    (if reloadOk e = false then
      (if snapID ≠ "" then [BackupOp.abort snapID] else []) ++ [BackupOp.restore]
    else if e.nginxReloadOk = false then
      (if snapID ≠ "" then [BackupOp.abort snapID] else []) ++ [BackupOp.restore]
    else if e.healthOk = false then
      (if snapID ≠ "" then [BackupOp.abort snapID] else []) ++ [BackupOp.restore]
    else
      (if snapID ≠ "" then [BackupOp.commit snapID] else []))

/-- `App.Start`'s snapshot lifecycle (after crash recovery): `Begin`,
then the initial `reload`, then `nginx.Start` (whose outcome is
`startOk`), then `CheckHealth`; any failure aborts the snapshot and
returns, and only full success commits. -/
def startTrace (e : ReloadEnv) (startOk : Bool) : List BackupOp :=
  let snapID := e.beginRes.getD ""
  [BackupOp.opBegin] ++
    (if reloadOk e = false then
      (if snapID ≠ "" then [BackupOp.abort snapID] else [])
    else if startOk = false then
      (if snapID ≠ "" then [BackupOp.abort snapID] else [])
    else if e.healthOk = false then
      (if snapID ≠ "" then [BackupOp.abort snapID] else [])
    else
      (if snapID ≠ "" then [BackupOp.commit snapID] else []))

/-- C1: in both reload paths, `Commit(id)` is called exactly when
`Begin()` returned that `id` and the whole pipeline — including the
proxy-reload (resp. start) step and the health check — succeeded; on any
failure of load, stage, activate, proxy-reload or health-check, `Commit`
is never called. -/
theorem commit_only_after_success (e : ReloadEnv) (startOk : Bool) (id : String)
    (hid : e.beginRes ≠ some "") :
    (BackupOp.commit id ∈ handleReloadTrace e ↔
      (e.beginRes = some id ∧ reloadOk e = true ∧ e.nginxReloadOk = true ∧
        e.healthOk = true)) ∧
    (BackupOp.commit id ∈ startTrace e startOk ↔
      (e.beginRes = some id ∧ reloadOk e = true ∧ startOk = true ∧
        e.healthOk = true)) := by
  rcases hbr : e.beginRes with - | bid
  · unfold handleReloadTrace startTrace
    rw [hbr]
    constructor <;>
      · simp only [Option.getD]
        split_ifs <;> simp_all
  · have hbid : bid ≠ "" := fun h => hid (h ▸ hbr)
    unfold handleReloadTrace startTrace
    rw [hbr]
    constructor <;>
      · simp only [Option.getD]
        split_ifs <;> (simp_all; try aesop)

/-- Witness for C1: with `Begin` returning `id1` and every step
succeeding, `Commit id1` is in the trace; flipping only the health check
removes it. -/
theorem commit_only_after_success_witness :
    BackupOp.commit "id1" ∈ handleReloadTrace
        ⟨some "id1", true, true, true, true, true, true, true, true, true⟩ ∧
      BackupOp.commit "id1" ∉ handleReloadTrace
        ⟨some "id1", true, true, true, true, true, true, true, true, false⟩ :=
  ⟨(commit_only_after_success
      ⟨some "id1", true, true, true, true, true, true, true, true, true⟩
      true "id1" (by decide)).1.mpr ⟨rfl, rfl, rfl, rfl⟩,
    fun hmem =>
      by simpa using ((commit_only_after_success
        ⟨some "id1", true, true, true, true, true, true, true, true, false⟩
        true "id1" (by decide)).1.mp hmem).2.2.2⟩

/-! ## Legacy config migration (`config.Prepare` /
`migrateLegacyConfigIfPresent`) -/

/-- The result of splitting a parsed legacy document: the extracted
`cors:` and `log:` sub-documents (when present) and the remaining proxy
document. -/
structure LegacySplit where
  proxyPart : String
  corsPart : Option String
  logsPart : Option String
deriving DecidableEq

/-- The configuration directory, restricted to the file slots the
migration reads or writes (`none` = file absent). -/
structure CfgDir where
  configYaml : Option String
  configYml : Option String
  proxyYaml : Option String
  corsYaml : Option String
  logsYaml : Option String
  backupYaml : Option String
  backupYml : Option String
  backupTsYaml : Option String
  backupTsYml : Option String
deriving DecidableEq

/-- The shipped example directory (`SSLLY_EXAMPLE_DIR`). -/
structure ExampleDir where
  proxyEx : Option String
  corsEx : Option String
  logsEx : Option String
deriving DecidableEq

/-- Legacy file selection: `config.yaml` is preferred over `config.yml`;
the Boolean records which one was found. -/
def legacySel (d : CfgDir) : Option (Bool × String) :=
  match d.configYaml with
  | some c => some (true, c)
  | none =>
    match d.configYml with
    | some c => some (false, c)
    | none => none

/-- `config.ensureSplitConfigFiles`: create each missing split file from
its example; a missing `proxy.yaml` with no example is fatal, missing
optional files fall back to an empty file. -/
def ensureSplitConfigFiles (ex : ExampleDir) (d0 : CfgDir) : Except String CfgDir := do
  let d1 ←
    match d0.proxyYaml with
    | some _ => pure d0
    | none =>
      match ex.proxyEx with
      | some c => pure { d0 with proxyYaml := some c }
      | none => throw "missing required proxy.yaml and no example found"
  let d2 :=
    match d1.corsYaml with
    | some _ => d1
    | none => { d1 with corsYaml := some (ex.corsEx.getD "") }
  let d3 :=
    match d2.logsYaml with
    | some _ => d2
    | none => { d2 with logsYaml := some (ex.logsEx.getD "") }
  return d3

/-- The final rename of the legacy file to `config.backup.yaml`/`.yml`,
or to the timestamped variant when that name is already taken. -/
def renameLegacy (isYaml : Bool) (content : String) (d : CfgDir) : CfgDir :=
  if isYaml then
    if d.backupYaml.isSome then
      { d with configYaml := none, backupTsYaml := some content }
    else
      { d with configYaml := none, backupYaml := some content }
  else
    if d.backupYml.isSome then
      { d with configYml := none, backupTsYml := some content }
    else
      { d with configYml := none, backupYml := some content }

/-- The extraction step of the migration: write the legacy `cors:` and
`log:` parts into the (missing) split files and the remainder into
`proxy.yaml`, each write guarded by a file-exists check as in the
source. -/
def extractParts (d0 : CfgDir) (parts : LegacySplit) : CfgDir :=
  let da :=
    match parts.corsPart with
    | some c => if d0.corsYaml.isNone then { d0 with corsYaml := some c } else d0
    | none => d0
  let db :=
    match parts.logsPart with
    | some c => if da.logsYaml.isNone then { da with logsYaml := some c } else da
    | none => da
  if db.proxyYaml.isNone then { db with proxyYaml := some parts.proxyPart } else db

/-- `config.migrateLegacyConfigIfPresent`, parameterised by the YAML
document splitter `parse` (the comment-preserving node surgery of the
source): when a legacy file exists and NONE of the three split files
exists, parse it and extract the parts into the missing files; then
ensure the split files exist from examples; finally rename the legacy
file to its backup name. -/
def migrateLegacyConfigIfPresent (parse : String → Option LegacySplit)
    (ex : ExampleDir) (d0 : CfgDir) : Except String CfgDir :=
  match legacySel d0 with
  | none => .ok d0
  | some (isYaml, content) =>
    let step1 : Except String CfgDir :=
      if (d0.proxyYaml.isSome || d0.corsYaml.isSome || d0.logsYaml.isSome) = false then
        match parse content with
        | none => .error "failed to parse legacy config"
        | some parts => .ok (extractParts d0 parts)
      else .ok d0
    match step1 with
    | .error e => .error e
    | .ok d1 =>
      match ensureSplitConfigFiles ex d1 with
      | .error e => .error e
      | .ok d2 => .ok (renameLegacy isYaml content d2)

/-- Where the legacy content ends up after a successful migration. -/
def backupHolds (isYaml : Bool) (content : String) (d : CfgDir) : Prop :=
  if isYaml then
    d.configYaml = none ∧
      (d.backupYaml = some content ∨ d.backupTsYaml = some content)
  else
    d.configYml = none ∧
      (d.backupYml = some content ∨ d.backupTsYml = some content)

theorem renameLegacy_backupHolds (isYaml : Bool) (content : String) (d : CfgDir) :
    backupHolds isYaml content (renameLegacy isYaml content d) := by
  unfold backupHolds renameLegacy
  split_ifs <;> simp

theorem renameLegacy_preserves_split (isYaml : Bool) (content : String) (d : CfgDir) :
    (renameLegacy isYaml content d).corsYaml = d.corsYaml ∧
      (renameLegacy isYaml content d).logsYaml = d.logsYaml ∧
      (renameLegacy isYaml content d).proxyYaml = d.proxyYaml := by
  unfold renameLegacy
  split_ifs <;> exact ⟨rfl, rfl, rfl⟩

/-- C10: when a legacy config file exists, a successful migration always
renames it to a backup name — even when split files already exist, in
which case the run does not depend on the legacy parser at all (no
content is extracted); extraction into the split files happens exactly
when none of the three exists, in which case each split file ends up with
the extracted part (or the example/empty fallback). -/
theorem migrate_legacy_semantics (parse : String → Option LegacySplit)
    (ex : ExampleDir) (d : CfgDir) (isYaml : Bool) (content : String)
    (hleg : legacySel d = some (isYaml, content)) :
    (∀ d', migrateLegacyConfigIfPresent parse ex d = .ok d' →
      backupHolds isYaml content d') ∧
    ((d.proxyYaml.isSome || d.corsYaml.isSome || d.logsYaml.isSome) = true →
      migrateLegacyConfigIfPresent parse ex d =
        (ensureSplitConfigFiles ex d).map (renameLegacy isYaml content)) ∧
    (∀ parts d', (d.proxyYaml.isSome || d.corsYaml.isSome || d.logsYaml.isSome) = false →
      parse content = some parts →
      migrateLegacyConfigIfPresent parse ex d = .ok d' →
      d'.corsYaml = some (parts.corsPart.getD (ex.corsEx.getD "")) ∧
        d'.logsYaml = some (parts.logsPart.getD (ex.logsEx.getD "")) ∧
        d'.proxyYaml = some parts.proxyPart) := by
  refine ⟨?_, ?_, ?_⟩
  · intro d' hok
    unfold migrateLegacyConfigIfPresent at hok
    split at hok
    · next h => rw [hleg] at h; cases h
    · next isY cont h =>
      rw [hleg] at h
      obtain ⟨rfl, rfl⟩ : isYaml = isY ∧ content = cont := by
        simpa using h
      simp only [] at hok
      split at hok
      · cases hok
      · next d1 hstep =>
        split at hok
        · cases hok
        · next d2 hens =>
          cases hok
          exact renameLegacy_backupHolds _ _ d2
  · intro hsplit
    unfold migrateLegacyConfigIfPresent
    split
    · next h => rw [hleg] at h; cases h
    · next isY cont h =>
      rw [hleg] at h
      obtain ⟨rfl, rfl⟩ : isYaml = isY ∧ content = cont := by
        simpa using h
      simp only []
      rw [if_neg (by simp [hsplit])]
      rcases he : ensureSplitConfigFiles ex d with e | d2 <;>
        simp [Except.map, he]
  · intro parts d' hsplit hp hok
    have hpy : d.proxyYaml = none := by
      cases h : d.proxyYaml <;> simp [h] at hsplit ⊢
    have hcy : d.corsYaml = none := by
      cases h : d.corsYaml <;> simp [h] at hsplit ⊢
    have hly : d.logsYaml = none := by
      cases h : d.logsYaml <;> simp [h] at hsplit ⊢
    unfold migrateLegacyConfigIfPresent at hok
    split at hok
    · next h => rw [hleg] at h; cases h
    · next isY cont h =>
      rw [hleg] at h
      obtain ⟨rfl, rfl⟩ : isYaml = isY ∧ content = cont := by
        simpa using h
      simp only [] at hok
      rw [if_pos hsplit] at hok
      split at hok
      · next e heq =>
        rw [hp] at heq
        simp at heq
      · next d1 heq =>
        rw [hp] at heq
        simp only [Except.ok.injEq] at heq
        subst heq
        split at hok
        · cases hok
        · next d2 hens =>
          cases hok
          rcases renameLegacy_preserves_split _ _ d2 with ⟨hrc, hrl, hrp⟩
          rw [hrc, hrl, hrp]
          rcases hc : parts.corsPart with - | c <;>
            rcases hl : parts.logsPart with - | l <;>
            · unfold extractParts at hens
              simp only [hc, hl, hpy, hcy, hly] at hens
              unfold ensureSplitConfigFiles at hens
              simp only [Bind.bind, Except.bind, pure, Except.pure] at hens
              simp only [Option.isNone_none, if_pos, Option.getD_some,
                Option.getD_none] at hens
              obtain rfl : _ = d2 := by
                simpa using hens
              simp [hc, hl]

/-- Witness for C10 at concrete directories: a directory holding a legacy
`config.yaml` plus an existing `proxy.yaml` renames without extraction; a
directory with only the legacy file extracts all three parts. -/
theorem migrate_legacy_semantics_witness :
    migrateLegacyConfigIfPresent
        (fun _ => some ⟨"P", some "C", some "L"⟩) ⟨some "PE", some "CE", some "LE"⟩
        ⟨some "LEG", none, some "P0", none, none, none, none, none, none⟩ =
      (ensureSplitConfigFiles ⟨some "PE", some "CE", some "LE"⟩
        ⟨some "LEG", none, some "P0", none, none, none, none, none, none⟩).map
        (renameLegacy true "LEG") ∧
    ∀ d', migrateLegacyConfigIfPresent
        (fun _ => some ⟨"P", some "C", some "L"⟩) ⟨some "PE", some "CE", some "LE"⟩
        ⟨some "LEG", none, none, none, none, none, none, none, none⟩ = .ok d' →
      d'.corsYaml = some "C" ∧ d'.logsYaml = some "L" ∧ d'.proxyYaml = some "P" :=
  ⟨(migrate_legacy_semantics (fun _ => some ⟨"P", some "C", some "L"⟩)
      ⟨some "PE", some "CE", some "LE"⟩
      ⟨some "LEG", none, some "P0", none, none, none, none, none, none⟩
      true "LEG" rfl).2.1 rfl,
    fun d' hok =>
      (migrate_legacy_semantics (fun _ => some ⟨"P", some "C", some "L"⟩)
        ⟨some "PE", some "CE", some "LE"⟩
        ⟨some "LEG", none, none, none, none, none, none, none, none⟩
        true "LEG" rfl).2.2 ⟨"P", some "C", some "L"⟩ d' rfl rfl hok⟩

/-! ## Domain-summary comparator (`app.domainLess`) -/

/-- Go `<` on strings: bytewise lexicographic comparison (equal to
codepoint order for the characters involved). -/
def strLtB : GoStr → GoStr → Bool
  | [], [] => false
  | [], _ :: _ => true
  | _ :: _, [] => false
  | a :: as, b :: bs =>
    if a.toNat < b.toNat then true
    else if b.toNat < a.toNat then false
    else strLtB as bs

/-- `strings.Split(s, ".")`: splits on dots; the empty string yields one
empty field. -/
def splitDot : GoStr → List GoStr
  | [] => [[]]
  | c :: rest =>
    if c = '.' then [] :: splitDot rest
    else
      match splitDot rest with
      | h :: t => (c :: h) :: t
      | [] => [[c]]

/-- The right-to-left label loop of `domainLess`, on reversed label
lists: the first differing label decides by Go string `<`; when one side
runs out, the domain with fewer labels sorts first. -/
def labelsLtRev : List GoStr → List GoStr → Bool
  | [], [] => false
  | [], _ :: _ => true
  | _ :: _, [] => false
  | a :: as, b :: bs => if a = b then labelsLtRev as bs else strLtB a b

/-- ASCII fragment of `strings.ToLower` (the comparator's inputs are
restricted to strings this normalization fixes). -/
def goToLowerChar (c : Char) : Char :=
  if 'A' ≤ c ∧ c ≤ 'Z' then Char.ofNat (c.toNat + 32) else c

def goToLower (s : GoStr) : GoStr := s.map goToLowerChar

/-- ASCII fragment of the whitespace set of `strings.TrimSpace`. -/
def isSpaceChar (c : Char) : Bool :=
  decide (c = ' ') || decide (c = '\t') || decide (c = '\n') || decide (c = '\r')

def goTrimSpace (s : GoStr) : GoStr :=
  (((s.dropWhile isSpaceChar).reverse.dropWhile isSpaceChar)).reverse

/-- The normalization both arguments of `domainLess` undergo:
`strings.ToLower(strings.TrimSpace(x))`. -/
def normalizeDomain (s : GoStr) : GoStr := goToLower (goTrimSpace s)

/-- The domain/path split of `domainLess`: at the first `/` whose index
is positive. -/
def splitEntry (s : GoStr) : GoStr × GoStr :=
  match goIndex s '/' with
  | some i => if 0 < i then (s.take i, s.drop i) else (s, [])
  | none => (s, [])

/-- The body of `app.domainLess` after normalization: equal strings are
not less; otherwise compare the domain components label-by-label from
the TLD leftwards, the shorter domain first on an equal shared suffix;
on equal domains a bare host sorts before the same host with a path,
then paths compare by Go `<`. -/
def entryLess (a b : GoStr) : Bool :=
  if a = b then false
  else
    let ad := (splitEntry a).1
    let ap := (splitEntry a).2
    let bd := (splitEntry b).1
    let bp := (splitEntry b).2
    if ad ≠ bd then
      labelsLtRev (splitDot ad).reverse (splitDot bd).reverse
    else if ap = [] ∧ bp ≠ [] then true
    else if ap ≠ [] ∧ bp = [] then false
    else strLtB ap bp

/-- `app.domainLess` (the domain-summary version with path handling):
lowercase and trim both arguments, then compare. -/
def domainLess (a0 b0 : GoStr) : Bool :=
  entryLess (normalizeDomain a0) (normalizeDomain b0)

theorem strLtB_irrefl (s : GoStr) : strLtB s s = false := by
  induction s with
  | nil => rfl
  | cons c s ih => simp [strLtB, ih]

theorem strLtB_asymm : ∀ {a b : GoStr}, strLtB a b = true → strLtB b a = false := by
  intro a
  induction a with
  | nil =>
    intro b h
    cases b with
    | nil => simp [strLtB] at h
    | cons d bs => rfl
  | cons c as ih =>
    intro b h
    cases b with
    | nil => simp [strLtB] at h
    | cons d bs =>
      simp only [strLtB] at h ⊢
      by_cases h1 : c.toNat < d.toNat
      · rw [if_neg (by omega), if_pos h1]
      · by_cases h2 : d.toNat < c.toNat
        · rw [if_neg h1, if_pos h2] at h
          cases h
        · rw [if_neg h1, if_neg h2] at h
          rw [if_neg h2, if_neg h1]
          exact ih h

theorem strLtB_trans : ∀ {a b c : GoStr},
    strLtB a b = true → strLtB b c = true → strLtB a c = true := by
  intro a
  induction a with
  | nil =>
    intro b c hab hbc
    cases b with
    | nil => simp [strLtB] at hab
    | cons d bs =>
      cases c with
      | nil => simp [strLtB] at hbc
      | cons e cs => rfl
  | cons x as ih =>
    intro b c hab hbc
    cases b with
    | nil => simp [strLtB] at hab
    | cons y bs =>
      cases c with
      | nil => simp [strLtB] at hbc
      | cons z cs =>
        simp only [strLtB] at hab hbc ⊢
        by_cases h1 : x.toNat < y.toNat
        · by_cases h2 : y.toNat < z.toNat
          · rw [if_pos (by omega)]
          · by_cases h3 : z.toNat < y.toNat
            · rw [if_neg h2, if_pos h3] at hbc
              cases hbc
            · rw [if_pos (by omega)]
        · by_cases h1' : y.toNat < x.toNat
          · rw [if_neg h1, if_pos h1'] at hab
            cases hab
          · rw [if_neg h1, if_neg h1'] at hab
            by_cases h2 : y.toNat < z.toNat
            · rw [if_pos (by omega)]
            · by_cases h3 : z.toNat < y.toNat
              · rw [if_neg h2, if_pos h3] at hbc
                cases hbc
              · rw [if_neg h2, if_neg h3] at hbc
                rw [if_neg (by omega), if_neg (by omega)]
                exact ih hab hbc

theorem strLtB_total : ∀ {a b : GoStr}, a ≠ b →
    strLtB a b = true ∨ strLtB b a = true := by
  intro a
  induction a with
  | nil =>
    intro b hne
    cases b with
    | nil => exact absurd rfl hne
    | cons d bs => left; rfl
  | cons c as ih =>
    intro b hne
    cases b with
    | nil => right; rfl
    | cons d bs =>
      by_cases hcd : c = d
      · subst hcd
        have hne' : as ≠ bs := fun h => hne (h ▸ rfl)
        rcases ih hne' with h | h
        · left
          simp [strLtB, h]
        · right
          simp [strLtB, h]
      · have hval : c.toNat ≠ d.toNat := by
          intro h
          exact hcd (Char.eq_of_val_eq (UInt32.toNat.inj h))
        by_cases hlt : c.toNat < d.toNat
        · left
          simp only [strLtB]
          rw [if_pos hlt]
        · right
          simp only [strLtB]
          rw [if_pos (by omega)]

theorem labelsLtRev_irrefl (l : List GoStr) : labelsLtRev l l = false := by
  induction l with
  | nil => rfl
  | cons a l ih => simp [labelsLtRev, ih]

theorem labelsLtRev_asymm : ∀ {l m : List GoStr},
    labelsLtRev l m = true → labelsLtRev m l = false := by
  intro l
  induction l with
  | nil =>
    intro m h
    cases m with
    | nil => simp [labelsLtRev] at h
    | cons b bs => rfl
  | cons a as ih =>
    intro m h
    cases m with
    | nil => simp [labelsLtRev] at h
    | cons b bs =>
      simp only [labelsLtRev] at h ⊢
      by_cases hab : a = b
      · subst hab
        rw [if_pos rfl] at h ⊢
        exact ih h
      · rw [if_neg hab] at h
        rw [if_neg (fun hba => hab hba.symm)]
        exact strLtB_asymm h

theorem labelsLtRev_trans : ∀ {l m n : List GoStr},
    labelsLtRev l m = true → labelsLtRev m n = true → labelsLtRev l n = true := by
  intro l
  induction l with
  | nil =>
    intro m n hlm hmn
    cases m with
    | nil => simp [labelsLtRev] at hlm
    | cons b bs =>
      cases n with
      | nil => simp [labelsLtRev] at hmn
      | cons c cs => rfl
  | cons a as ih =>
    intro m n hlm hmn
    cases m with
    | nil => simp [labelsLtRev] at hlm
    | cons b bs =>
      cases n with
      | nil => simp [labelsLtRev] at hmn
      | cons c cs =>
        simp only [labelsLtRev] at hlm hmn ⊢
        by_cases hab : a = b
        · subst hab
          rw [if_pos rfl] at hlm
          by_cases hbc : a = c
          · subst hbc
            rw [if_pos rfl] at hmn ⊢
            exact ih hlm hmn
          · rw [if_neg hbc] at hmn ⊢
            exact hmn
        · rw [if_neg hab] at hlm
          by_cases hbc : b = c
          · subst hbc
            rw [if_neg hab]
            exact hlm
          · rw [if_neg hbc] at hmn
            have hac : a ≠ c := by
              intro h
              subst h
              rw [strLtB_asymm hmn] at hlm
              cases hlm
            rw [if_neg hac]
            exact strLtB_trans hlm hmn

theorem labelsLtRev_total : ∀ {l m : List GoStr}, l ≠ m →
    labelsLtRev l m = true ∨ labelsLtRev m l = true := by
  intro l
  induction l with
  | nil =>
    intro m hne
    cases m with
    | nil => exact absurd rfl hne
    | cons b bs => left; rfl
  | cons a as ih =>
    intro m hne
    cases m with
    | nil => right; rfl
    | cons b bs =>
      by_cases hab : a = b
      · subst hab
        have hne' : as ≠ bs := fun h => hne (h ▸ rfl)
        rcases ih hne' with h | h
        · left; simp [labelsLtRev, h]
        · right; simp [labelsLtRev, h]
      · rcases strLtB_total hab with h | h
        · left
          simp only [labelsLtRev]
          rw [if_neg hab]
          exact h
        · right
          simp only [labelsLtRev]
          rw [if_neg (fun hba => hab hba.symm)]
          exact h

def joinDot : List GoStr → GoStr
  | [] => []
  | [x] => x
  | x :: y :: t => x ++ '.' :: joinDot (y :: t)

theorem splitDot_ne_nil (s : GoStr) : splitDot s ≠ [] := by
  cases s with
  | nil => simp [splitDot]
  | cons c rest =>
    unfold splitDot
    split
    · simp
    · split <;> simp

theorem joinDot_cons_cons (c : Char) (h : GoStr) (t : List GoStr) :
    joinDot ((c :: h) :: t) = c :: joinDot (h :: t) := by
  cases t <;> rfl

theorem joinDot_splitDot (s : GoStr) : joinDot (splitDot s) = s := by
  induction s with
  | nil => rfl
  | cons c rest ih =>
    unfold splitDot
    by_cases hc : c = '.'
    · rw [if_pos hc]
      rcases hs : splitDot rest with - | ⟨h, t⟩
      · exact absurd hs (splitDot_ne_nil rest)
      · rw [hs] at ih
        subst hc
        calc joinDot ([] :: h :: t) = '.' :: joinDot (h :: t) := rfl
          _ = '.' :: rest := by rw [ih]
    · rw [if_neg hc]
      rcases hs : splitDot rest with - | ⟨h, t⟩
      · exact absurd hs (splitDot_ne_nil rest)
      · rw [hs] at ih
        rw [joinDot_cons_cons, ih]

theorem splitDot_injective {a b : GoStr} (h : splitDot a = splitDot b) : a = b := by
  have := congrArg joinDot h
  rwa [joinDot_splitDot, joinDot_splitDot] at this

theorem splitEntry_append (s : GoStr) : (splitEntry s).1 ++ (splitEntry s).2 = s := by
  unfold splitEntry
  rcases goIndex s '/' with - | i
  · simp
  · simp only []
    split
    · simp [List.take_append_drop]
    · simp

theorem entryLess_irrefl (a : GoStr) : entryLess a a = false := by
  unfold entryLess
  rw [if_pos rfl]

theorem entryLess_asymm {a b : GoStr} (h : entryLess a b = true) :
    entryLess b a = false := by
  by_cases hab : a = b
  · rw [hab, entryLess_irrefl] at h
    cases h
  · unfold entryLess at h ⊢
    rw [if_neg hab] at h
    rw [if_neg (fun hba => hab hba.symm)]
    simp only [] at h ⊢
    by_cases hd : (splitEntry a).1 = (splitEntry b).1
    · rw [if_neg (fun hx => hx hd)] at h
      rw [if_neg (fun hx => hx hd.symm)]
      have hp : (splitEntry a).2 ≠ (splitEntry b).2 := by
        intro hpe
        refine hab ?_
        have ha := splitEntry_append a
        have hb := splitEntry_append b
        rw [← ha, ← hb, hd, hpe]
      rcases hae : (splitEntry a).2 with - | ⟨x, xs⟩ <;>
        rcases hbe : (splitEntry b).2 with - | ⟨y, ys⟩
      · exact absurd (hae.trans hbe.symm) hp
      · simp
      · simp [hae, hbe] at h
      · simp [hae, hbe] at h
        simp
        exact strLtB_asymm h
    · rw [if_pos hd] at h
      rw [if_pos (fun he => hd he.symm)]
      exact labelsLtRev_asymm h

theorem entryLess_trans {a b c : GoStr} (hab : entryLess a b = true)
    (hbc : entryLess b c = true) : entryLess a c = true := by
  have hne_ab : a ≠ b := by
    intro h
    rw [h, entryLess_irrefl] at hab
    cases hab
  have hne_bc : b ≠ c := by
    intro h
    rw [h, entryLess_irrefl] at hbc
    cases hbc
  have hne_ac : a ≠ c := by
    intro h
    subst h
    rw [entryLess_asymm hbc] at hab
    cases hab
  unfold entryLess at hab hbc ⊢
  rw [if_neg hne_ab] at hab
  rw [if_neg hne_bc] at hbc
  rw [if_neg hne_ac]
  simp only [] at hab hbc ⊢
  by_cases hdab : (splitEntry a).1 = (splitEntry b).1
  · rw [if_neg (fun hx => hx hdab)] at hab
    by_cases hdbc : (splitEntry b).1 = (splitEntry c).1
    · rw [if_neg (fun hx => hx hdbc)] at hbc
      rw [if_neg (fun hx => hx (hdab.trans hdbc))]
      rcases hae : (splitEntry a).2 with - | ⟨x, xs⟩ <;>
        rcases hbe : (splitEntry b).2 with - | ⟨y, ys⟩ <;>
        rcases hce : (splitEntry c).2 with - | ⟨z, zs⟩
      · simp [hae, hbe, strLtB] at hab
      · simp [hae, hbe, strLtB] at hab
      · simp [hbe, hce] at hbc
      · simp
      · simp [hae, hbe] at hab
      · simp [hae, hbe] at hab
      · simp [hbe, hce] at hbc
      · simp [hae, hbe, hce] at hab hbc
        simp
        exact strLtB_trans hab hbc
    · rw [if_pos hdbc] at hbc
      rw [if_pos (fun hx => hdbc (hdab.symm.trans hx))]
      rw [← hdab] at hbc
      exact hbc
  · rw [if_pos hdab] at hab
    by_cases hdbc : (splitEntry b).1 = (splitEntry c).1
    · rw [if_pos (fun hx => hdab (hx.trans hdbc.symm))]
      rw [hdbc] at hab
      exact hab
    · rw [if_pos hdbc] at hbc
      have hdac : (splitEntry a).1 ≠ (splitEntry c).1 := by
        intro hx
        rw [hx] at hab
        rw [labelsLtRev_asymm hbc] at hab
        cases hab
      rw [if_pos hdac]
      exact labelsLtRev_trans hab hbc

theorem entryLess_eval_left {a b : GoStr} (hab : a ≠ b)
    (hd : (splitEntry a).1 = (splitEntry b).1) :
    entryLess a b =
      (if (splitEntry a).2 = [] ∧ (splitEntry b).2 ≠ [] then true
       else if (splitEntry a).2 ≠ [] ∧ (splitEntry b).2 = [] then false
       else strLtB (splitEntry a).2 (splitEntry b).2) := by
  unfold entryLess
  rw [if_neg hab]
  simp only []
  rw [if_neg (fun hx => hx hd)]

theorem entryLess_total {a b : GoStr} (hne : a ≠ b) :
    entryLess a b = true ∨ entryLess b a = true := by
  by_cases hd : (splitEntry a).1 = (splitEntry b).1
  · have hp : (splitEntry a).2 ≠ (splitEntry b).2 := by
      intro hpe
      refine hne ?_
      have ha := splitEntry_append a
      have hb := splitEntry_append b
      rw [← ha, ← hb, hd, hpe]
    rw [entryLess_eval_left hne hd,
      entryLess_eval_left (fun hx => hne hx.symm) hd.symm]
    rcases hae : (splitEntry a).2 with - | ⟨x, xs⟩ <;>
      rcases hbe : (splitEntry b).2 with - | ⟨y, ys⟩
    · exact absurd (hae.trans hbe.symm) hp
    · left
      simp
    · right
      simp
    · rcases strLtB_total (show (x :: xs : GoStr) ≠ y :: ys by
        simpa [hae, hbe] using hp) with hlt | hlt
      · left
        simpa using hlt
      · right
        simpa using hlt
  · have hlbl : (splitDot (splitEntry a).1).reverse ≠
        (splitDot (splitEntry b).1).reverse := by
      intro hx
      exact hd (splitDot_injective (List.reverse_injective hx))
    have heval : ∀ x y : GoStr, x ≠ y → (splitEntry x).1 ≠ (splitEntry y).1 →
        entryLess x y =
          labelsLtRev (splitDot (splitEntry x).1).reverse
            (splitDot (splitEntry y).1).reverse := by
      intro x y hxy hdxy
      unfold entryLess
      rw [if_neg hxy]
      simp only []
      rw [if_pos hdxy]
    rcases labelsLtRev_total hlbl with hlt | hlt
    · left
      rw [heval a b hne hd]
      exact hlt
    · right
      rw [heval b a (fun hx => hne hx.symm) (fun hx => hd hx.symm)]
      exact hlt

/-- C9: the domain comparator is a strict total order on normalized
(lowercase, trimmed) domain strings: irreflexive, asymmetric, transitive,
and total on distinct normalized strings. -/
theorem domainLess_strict_total_order :
    (∀ a : GoStr, domainLess a a = false) ∧
    (∀ a b : GoStr, domainLess a b = true → domainLess b a = false) ∧
    (∀ a b c : GoStr, domainLess a b = true → domainLess b c = true →
      domainLess a c = true) ∧
    (∀ a b : GoStr, normalizeDomain a = a → normalizeDomain b = b → a ≠ b →
      (domainLess a b = true ∨ domainLess b a = true)) := by
  refine ⟨?_, ?_, ?_, ?_⟩
  · intro a
    exact entryLess_irrefl _
  · intro a b h
    exact entryLess_asymm h
  · intro a b c hab hbc
    exact entryLess_trans hab hbc
  · intro a b hna hnb hne
    unfold domainLess
    rw [hna, hnb]
    exact entryLess_total hne

/-- Witness for C9 at concrete domains: irreflexivity at `"abc.de"`,
transitivity across `"abc.de" < "abc.de/api" < "b.abc.de"`, and totality
for the normalized pair `"abc.de"`, `"b.abc.de"`. -/
theorem domainLess_strict_total_order_witness :
    domainLess (gs "abc.de") (gs "abc.de") = false ∧
      domainLess (gs "abc.de") (gs "b.abc.de") = true ∧
      (domainLess (gs "abc.de") (gs "b.abc.de") = true ∨
        domainLess (gs "b.abc.de") (gs "abc.de") = true) :=
  ⟨domainLess_strict_total_order.1 (gs "abc.de"),
    domainLess_strict_total_order.2.2.1 (gs "abc.de") (gs "abc.de/api")
      (gs "b.abc.de") (by decide) (by decide),
    domainLess_strict_total_order.2.2.2 (gs "abc.de") (gs "b.abc.de")
      (by decide) (by decide) (by decide)⟩

/-! ## Certificate selection (`internal/ssl/ssl.go`) -/

/-- `ssl.Certificate`; `NotAfter` is an instant (Go `time.Time.After` is
`<` on instants, modelled as naturals). -/
structure Certificate where
  CertPath : GoStr
  KeyPath : GoStr
  NotAfter : Nat
deriving DecidableEq

/-- `filepath.Ext`: the suffix starting at the final dot of the final
(slash-separated) path element, dot included; empty when there is no
dot. -/
def filepathExt (p : GoStr) : GoStr :=
  let base := (p.reverse.takeWhile (fun c => !(decide (c = '/')))).reverse
  match goLastIndex base '.' with
  | some i => base.drop i
  | none => []

/-- `ssl.certificatePathPriority`: `.pem` ranks above `.crt` ranks above
anything else (extension compared lowercased). -/
def certificatePathPriority (path : GoStr) : Nat :=
  let ext := goToLower (filepathExt path)
  if ext = gs ".pem" then 2
  else if ext = gs ".crt" then 1
  else 0

/-- `strings.EqualFold`, on the ASCII fragment the path comparison
uses: equality after lowercasing. -/
def goEqualFold (a b : GoStr) : Bool :=
  decide (goToLower a = goToLower b)

/-- `ssl.isBetterCertificate`, translated clause by clause: latest
expiry wins; then `.pem` over `.crt` by path priority; then the
case-insensitively smaller cert path; then the case-insensitively
smaller key path. -/
def isBetterCertificate (existing candidate : Certificate) : Bool :=
  if existing.NotAfter < candidate.NotAfter then true
  else if candidate.NotAfter < existing.NotAfter then false
  else if certificatePathPriority candidate.CertPath ≠
      certificatePathPriority existing.CertPath then
    decide (certificatePathPriority candidate.CertPath >
      certificatePathPriority existing.CertPath)
  else if ¬ (goEqualFold candidate.CertPath existing.CertPath = true) then
    strLtB (goToLower candidate.CertPath) (goToLower existing.CertPath)
  else
    strLtB (goToLower candidate.KeyPath) (goToLower existing.KeyPath)

/-- The per-host selection loop of `ScanCertificates`: the first usable
candidate for a host is kept; each later candidate replaces the current
selection exactly when `isBetterCertificate` says so.  The list order is
the order in which the walk visits the candidate files. -/
def scanSelect (l : List Certificate) : Option Certificate :=
  l.foldl (fun acc cand =>
    match acc with
    | none => some cand
    | some prev => if isBetterCertificate prev cand then some cand else some prev)
    none

/-- The comparison key that `isBetterCertificate` effectively orders by:
expiry, extension priority, lowercased cert path, lowercased key path. -/
def certKey (c : Certificate) : Nat × Nat × GoStr × GoStr :=
  (c.NotAfter, certificatePathPriority c.CertPath,
    goToLower c.CertPath, goToLower c.KeyPath)

/-- The strict order "candidate `c` beats existing `e`" in propositional
form: larger expiry; or equal expiry and larger priority; or those equal
and case-insensitively smaller cert path; or all those equal and
case-insensitively smaller key path. -/
def certLt (e c : Certificate) : Prop :=
  e.NotAfter < c.NotAfter ∨
    (e.NotAfter = c.NotAfter ∧
      (certificatePathPriority e.CertPath < certificatePathPriority c.CertPath ∨
        (certificatePathPriority e.CertPath = certificatePathPriority c.CertPath ∧
          (strLtB (goToLower c.CertPath) (goToLower e.CertPath) = true ∨
            (goToLower c.CertPath = goToLower e.CertPath ∧
              strLtB (goToLower c.KeyPath) (goToLower e.KeyPath) = true)))))

theorem strLtB_not_both {a b : GoStr} (h : strLtB a b = true) :
    ¬ strLtB b a = true := by
  rw [strLtB_asymm h]
  simp

theorem isBetter_iff_certLt (e c : Certificate) :
    isBetterCertificate e c = true ↔ certLt e c := by
  unfold isBetterCertificate certLt goEqualFold
  by_cases h1 : e.NotAfter < c.NotAfter
  · simp [h1]
  · rw [if_neg h1]
    by_cases h2 : c.NotAfter < e.NotAfter
    · simp only [if_pos h2]
      constructor
      · intro h
        cases h
      · intro h
        rcases h with h | ⟨he, -⟩
        · omega
        · omega
    · rw [if_neg h2]
      have heq : e.NotAfter = c.NotAfter := by omega
      by_cases h3 : certificatePathPriority c.CertPath =
          certificatePathPriority e.CertPath
      · rw [if_neg (fun hx => hx h3)]
        by_cases h4 : goToLower c.CertPath = goToLower e.CertPath
        · rw [if_neg (by simp [h4])]
          constructor
          · intro h
            exact Or.inr ⟨heq, Or.inr ⟨h3.symm, Or.inr ⟨h4, h⟩⟩⟩
          · intro h
            rcases h with h | ⟨-, h | ⟨-, h | ⟨-, h⟩⟩⟩
            · omega
            · omega
            · rw [h4, strLtB_irrefl] at h
              cases h
            · exact h
        · rw [if_pos (by simp [h4])]
          constructor
          · intro h
            exact Or.inr ⟨heq, Or.inr ⟨h3.symm, Or.inl h⟩⟩
          · intro h
            rcases h with h | ⟨-, h | ⟨-, h | ⟨h', -⟩⟩⟩
            · omega
            · omega
            · exact h
            · exact absurd h' h4
      · rw [if_pos h3]
        constructor
        · intro h
          simp only [decide_eq_true_eq] at h
          exact Or.inr ⟨heq, Or.inl h⟩
        · intro h
          simp only [decide_eq_true_eq]
          rcases h with h | ⟨-, h | ⟨h', -⟩⟩
          · omega
          · exact h
          · exact absurd h'.symm h3

theorem certLt_irrefl (c : Certificate) : ¬ certLt c c := by
  unfold certLt
  intro h
  rcases h with h | ⟨-, h | ⟨-, h | ⟨-, h⟩⟩⟩
  · omega
  · omega
  · rw [strLtB_irrefl] at h
    cases h
  · rw [strLtB_irrefl] at h
    cases h

theorem certLt_asymm {a b : Certificate} (h : certLt a b) : ¬ certLt b a := by
  unfold certLt at h ⊢
  intro h'
  rcases h with h | ⟨he, h | ⟨hp, h | ⟨hc, h⟩⟩⟩ <;>
    rcases h' with h' | ⟨he', h' | ⟨hp', h' | ⟨hc', h'⟩⟩⟩ <;>
    first
    | omega
    | (exact strLtB_not_both h h')
    | (rw [hc] at h'; rw [strLtB_irrefl] at h'; cases h')
    | (rw [hc'] at h; rw [strLtB_irrefl] at h; cases h)

theorem certLt_trans {a b c : Certificate} (hab : certLt a b) (hbc : certLt b c) :
    certLt a c := by
  unfold certLt at hab hbc ⊢
  rcases hab with h | ⟨he, h | ⟨hp, h | ⟨hc, h⟩⟩⟩ <;>
    rcases hbc with h' | ⟨he', h' | ⟨hp', h' | ⟨hc', h'⟩⟩⟩
  · left; omega
  · left; omega
  · left; omega
  · left; omega
  · left; omega
  · exact Or.inr ⟨by omega, Or.inl (by omega)⟩
  · exact Or.inr ⟨by omega, Or.inl (by omega)⟩
  · exact Or.inr ⟨by omega, Or.inl (by omega)⟩
  · left; omega
  · exact Or.inr ⟨by omega, Or.inl (by omega)⟩
  · exact Or.inr ⟨by omega, Or.inr ⟨by omega, Or.inl (strLtB_trans h' h)⟩⟩
  · exact Or.inr ⟨by omega, Or.inr ⟨by omega, Or.inl (by rw [hc']; exact h)⟩⟩
  · left; omega
  · exact Or.inr ⟨by omega, Or.inl (by omega)⟩
  · exact Or.inr ⟨by omega, Or.inr ⟨by omega, Or.inl (by rw [← hc]; exact h')⟩⟩
  · exact Or.inr ⟨by omega, Or.inr ⟨by omega,
      Or.inr ⟨hc'.trans hc, strLtB_trans h' h⟩⟩⟩

theorem certLt_resolve {a b : Certificate} (h1 : ¬ certLt a b) (h2 : ¬ certLt b a) :
    certKey a = certKey b := by
  unfold certLt at h1 h2
  push_neg at h1 h2
  obtain ⟨hn1, hrest1⟩ := h1
  obtain ⟨hn2, hrest2⟩ := h2
  have hn : a.NotAfter = b.NotAfter := by omega
  obtain ⟨hp1, hrest1⟩ := hrest1 hn
  obtain ⟨hp2, hrest2⟩ := hrest2 hn.symm
  have hp : certificatePathPriority a.CertPath =
      certificatePathPriority b.CertPath := by omega
  obtain ⟨hc1, hrest1⟩ := hrest1 hp
  obtain ⟨hc2, hrest2⟩ := hrest2 hp.symm
  have hcp : goToLower a.CertPath = goToLower b.CertPath := by
    by_cases hx : goToLower a.CertPath = goToLower b.CertPath
    · exact hx
    · rcases strLtB_total hx with hlt | hlt
      · exact absurd hlt hc2
      · exact absurd hlt hc1
  have hk1 := hrest1 hcp.symm
  have hk2 := hrest2 hcp
  have hkp : goToLower a.KeyPath = goToLower b.KeyPath := by
    by_cases hx : goToLower a.KeyPath = goToLower b.KeyPath
    · exact hx
    · rcases strLtB_total hx with hlt | hlt
      · exact absurd hlt hk2
      · exact absurd hlt hk1
  unfold certKey
  rw [hn, hp, hcp, hkp]

theorem certLt_congr_left {a b c : Certificate} (h : certKey a = certKey b)
    (hlt : certLt a c) : certLt b c := by
  unfold certKey at h
  simp only [Prod.mk.injEq] at h
  rcases h with ⟨k1, k2, k3, k4⟩
  unfold certLt at hlt ⊢
  rw [← k1, ← k2, ← k3, ← k4]
  exact hlt

/-- The selection among `a :: l` expressed without `Option`. -/
def selFrom (a : Certificate) (l : List Certificate) : Certificate :=
  l.foldl (fun prev cand => if isBetterCertificate prev cand then cand else prev) a

theorem scanSelect_cons (x : Certificate) (xs : List Certificate) :
    scanSelect (x :: xs) = some (selFrom x xs) := by
  unfold scanSelect selFrom
  suffices h : ∀ (l : List Certificate) (a : Certificate),
      l.foldl (fun acc cand =>
        match acc with
        | none => some cand
        | some prev =>
          if isBetterCertificate prev cand then some cand else some prev)
        (some a) =
      some (l.foldl (fun prev cand =>
        if isBetterCertificate prev cand then cand else prev) a) by
    simpa using h xs x
  intro l
  induction l with
  | nil => intro a; rfl
  | cons y ys ih =>
    intro a
    simp only [List.foldl_cons]
    cases hb : isBetterCertificate a y
    · simpa using ih a
    · simpa using ih y

theorem selFrom_mem (l : List Certificate) :
    ∀ a : Certificate, selFrom a l = a ∨ selFrom a l ∈ l := by
  induction l with
  | nil => intro a; left; rfl
  | cons y ys ih =>
    intro a
    unfold selFrom
    simp only [List.foldl_cons]
    by_cases hb : isBetterCertificate a y = true
    · rw [if_pos hb]
      rcases ih y with h | h
      · right
        rw [show selFrom y ys = List.foldl _ y ys from rfl] at h
        simp [h]
      · right
        right
        exact h
    · rw [if_neg hb]
      rcases ih a with h | h
      · left
        exact h
      · right
        right
        exact h

theorem selFrom_maximal (l : List Certificate) :
    ∀ a : Certificate, ¬ certLt (selFrom a l) a ∧
      ∀ y ∈ l, ¬ certLt (selFrom a l) y := by
  induction l with
  | nil =>
    intro a
    exact ⟨certLt_irrefl a, fun y hy => absurd hy (List.not_mem_nil y)⟩
  | cons x xs ih =>
    intro a
    unfold selFrom
    simp only [List.foldl_cons]
    by_cases hb : isBetterCertificate a x = true
    · rw [if_pos hb]
      have hax : certLt a x := (isBetter_iff_certLt a x).mp hb
      rcases ih x with ⟨hx, hall⟩
      refine ⟨?_, ?_⟩
      · intro hcontra
        exact hx (certLt_trans hcontra hax)
      · intro y hy
        rcases List.mem_cons.mp hy with rfl | hy'
        · exact hx
        · exact hall y hy'
    · rw [if_neg hb]
      have hax : ¬ certLt a x := fun h => hb ((isBetter_iff_certLt a x).mpr h)
      rcases ih a with ⟨ha, hall⟩
      refine ⟨ha, ?_⟩
      intro y hy
      rcases List.mem_cons.mp hy with rfl | hy'
      · intro hcontra
        by_cases hgt : certLt a (selFrom a xs)
        · exact hax (certLt_trans hgt hcontra)
        · exact hax (certLt_congr_left (certLt_resolve ha hgt) hcontra)
      · exact hall y hy'

theorem scanSelect_perm_eq {l l2 : List Certificate} (hperm : l.Perm l2)
    (hpw : l.Pairwise (fun x y => certKey x ≠ certKey y)) :
    scanSelect l = scanSelect l2 := by
  cases l with
  | nil =>
    rw [← hperm.nil_eq]
  | cons x xs =>
    cases l2 with
    | nil =>
      exact absurd hperm.symm.nil_eq (by simp)
    | cons y ys =>
      rw [scanSelect_cons, scanSelect_cons]
      congr 1
      by_contra hne
      have hrmemL : selFrom x xs ∈ x :: xs := by
        rcases selFrom_mem xs x with h | h
        · rw [h]; exact List.mem_cons_self x xs
        · exact List.mem_cons_of_mem x h
      have hrmemR : selFrom y ys ∈ y :: ys := by
        rcases selFrom_mem ys y with h | h
        · rw [h]; exact List.mem_cons_self y ys
        · exact List.mem_cons_of_mem y h
      have hrmemR' : selFrom y ys ∈ x :: xs := hperm.mem_iff.mpr hrmemR
      have hmaxL : ∀ z ∈ x :: xs, ¬ certLt (selFrom x xs) z := by
        intro z hz
        rcases List.mem_cons.mp hz with rfl | hz'
        · exact (selFrom_maximal xs z).1
        · exact (selFrom_maximal xs x).2 z hz'
      have hmaxR : ∀ z ∈ y :: ys, ¬ certLt (selFrom y ys) z := by
        intro z hz
        rcases List.mem_cons.mp hz with rfl | hz'
        · exact (selFrom_maximal ys z).1
        · exact (selFrom_maximal ys y).2 z hz'
      have hsymm : Symmetric (fun u v : Certificate => certKey u ≠ certKey v) :=
        fun u v h hq => h hq.symm
      have hkey : certKey (selFrom x xs) ≠ certKey (selFrom y ys) :=
        List.Pairwise.forall hsymm hpw hrmemL hrmemR' hne
      by_cases hlr : certLt (selFrom x xs) (selFrom y ys)
      · exact hmaxL (selFrom y ys) hrmemR' hlr
      · by_cases hrl : certLt (selFrom y ys) (selFrom x xs)
        · exact hmaxR (selFrom x xs) (hperm.mem_iff.mp hrmemL) hrl
        · exact hkey (certLt_resolve hlr hrl)

/-- C4 (amended): the certificate selected for a host maximises
`not_after` among the usable candidates, with ties broken by `.pem` over
`.crt` and then CASE-INSENSITIVE (lowercased) lexicographic comparison
of cert path then key path; the selection is independent of the order in
which the walk visits the candidates PROVIDED no two distinct candidates
agree on expiry, extension priority, lowercased cert path, and
lowercased key path simultaneously. -/
theorem scan_selection_correct (l l2 : List Certificate) (hperm : l.Perm l2)
    (hpw : l.Pairwise (fun x y => certKey x ≠ certKey y)) :
    scanSelect l = scanSelect l2 ∧
      ∀ r, scanSelect l = some r →
        r ∈ l ∧ ∀ y ∈ l, y.NotAfter ≤ r.NotAfter ∧
          isBetterCertificate r y = false := by
  refine ⟨scanSelect_perm_eq hperm hpw, ?_⟩
  intro r hr
  cases l with
  | nil => cases hr
  | cons x xs =>
    rw [scanSelect_cons] at hr
    injection hr with hr
    subst hr
    have hmem : selFrom x xs ∈ x :: xs := by
      rcases selFrom_mem xs x with h | h
      · rw [h]; exact List.mem_cons_self x xs
      · exact List.mem_cons_of_mem x h
    refine ⟨hmem, ?_⟩
    intro y hy
    have hnl : ¬ certLt (selFrom x xs) y := by
      rcases List.mem_cons.mp hy with rfl | hy'
      · exact (selFrom_maximal xs y).1
      · exact (selFrom_maximal xs x).2 y hy'
    constructor
    · unfold certLt at hnl
      push_neg at hnl
      omega
    · by_contra hb
      rw [Bool.not_eq_false] at hb
      exact hnl ((isBetter_iff_certLt _ _).mp hb)

/-- Two usable candidates that tie on expiry and differ only in the case
of their paths: the comparison collapses them, so whichever is visited
first wins. -/
def certCaseA : Certificate := ⟨gs "/ssl/A.pem", gs "/ssl/K.key", 100⟩

def certCaseB : Certificate := ⟨gs "/ssl/a.pem", gs "/ssl/k.key", 100⟩

/-- C4 (counterexample): the selection is NOT independent of the
visiting order, and ties are NOT broken by plain lexicographic path
comparison: for two distinct candidates whose paths differ only by
letter case, neither beats the other (the tie-breaks compare lowercased
paths), so the two visiting orders of the same candidate set select
different certificates. -/
theorem scanSelect_order_dependent_cex :
    [certCaseA, certCaseB].Perm [certCaseB, certCaseA] ∧
      certCaseA ≠ certCaseB ∧
      scanSelect [certCaseA, certCaseB] = some certCaseA ∧
      scanSelect [certCaseB, certCaseA] = some certCaseB := by
  refine ⟨List.Perm.swap certCaseB certCaseA [], by decide, by decide, by decide⟩

/-- Witness for C4 at a concrete candidate set with distinct keys: the
48-hour certificate is selected from either visiting order, and it
maximises expiry. -/
def certEx1 : Certificate := ⟨gs "/ssl/a24.pem", gs "/ssl/a24.key", 24⟩

def certEx2 : Certificate := ⟨gs "/ssl/a48.pem", gs "/ssl/a48.key", 48⟩

theorem scan_selection_correct_witness :
    scanSelect [certEx1, certEx2] = scanSelect [certEx2, certEx1] ∧
      scanSelect [certEx1, certEx2] = some certEx2 ∧
      certEx1.NotAfter ≤ certEx2.NotAfter :=
  have h := scan_selection_correct [certEx1, certEx2] [certEx2, certEx1]
    (List.Perm.swap certEx2 certEx1 []) (by decide)
  ⟨h.1, by decide,
    ((h.2 certEx2 (by decide)).2 certEx1 (by decide)).1⟩

/-! ## Config renderer (`internal/nginx/nginx.go`) -/

/-- `nginx.RouteConfig`. -/
structure RouteConfig where
  Upstream : Upstream
  DomainPath : GoStr
  BaseDomain : GoStr
  Path : GoStr
deriving DecidableEq

/-- One truncated sweep of the bubble sort in
`sortRoutesByPathLength`: the counter is the number of adjacent
comparisons left in this inner loop (`j` ranging over `0 ≤ j < limit`);
a pair is swapped when the left path is shorter than the right. -/
def bubblePassUpto : Nat → List RouteConfig → List RouteConfig
  | _, [] => []
  | _, [r] => [r]
  | 0, l => l
  | n + 1, a :: b :: rest =>
    if a.Path.length < b.Path.length then b :: bubblePassUpto n (a :: rest)
    else a :: bubblePassUpto n (b :: rest)

/-- `nginx.sortRoutesByPathLength`: the two nested loops of the source
bubble sort; outer iteration `i` runs the inner loop for
`n-1-i` comparisons. -/
def sortRoutesByPathLength (routes : List RouteConfig) : List RouteConfig :=
  let n := routes.length
  (List.range (n - 1)).foldl (fun acc i => bubblePassUpto (n - 1 - i) acc) routes

theorem bubblePassUpto_perm : ∀ (n : Nat) (l : List RouteConfig),
    (bubblePassUpto n l).Perm l := by
  intro n
  induction n with
  | zero =>
    intro l
    match l with
    | [] => exact List.Perm.refl _
    | [r] => exact List.Perm.refl _
    | a :: b :: rest => exact List.Perm.refl _
  | succ n ih =>
    intro l
    match l with
    | [] => exact List.Perm.refl _
    | [r] => exact List.Perm.refl _
    | a :: b :: rest =>
      show (if a.Path.length < b.Path.length then b :: bubblePassUpto n (a :: rest)
        else a :: bubblePassUpto n (b :: rest)).Perm (a :: b :: rest)
      split
      · exact ((ih (a :: rest)).cons b).trans (List.Perm.swap a b rest)
      · exact (ih (b :: rest)).cons a

theorem bubblePassUpto_length (n : Nat) (l : List RouteConfig) :
    (bubblePassUpto n l).length = l.length :=
  (bubblePassUpto_perm n l).length_eq

theorem bubblePassUpto_last_min : ∀ (n : Nat) (l : List RouteConfig),
    l.length ≤ n + 1 → l ≠ [] →
    ∃ m t, bubblePassUpto n l = t ++ [m] ∧
      (∀ y ∈ l, m.Path.length ≤ y.Path.length) ∧
      (bubblePassUpto n l).Perm l := by
  intro n
  induction n with
  | zero =>
    intro l hlen hne
    match l with
    | [] => exact absurd rfl hne
    | [r] =>
      exact ⟨r, [], rfl, by
        intro y hy
        rcases List.mem_singleton.mp hy with rfl
        exact le_refl _, List.Perm.refl _⟩
    | a :: b :: rest => simp at hlen
  | succ n ih =>
    intro l hlen hne
    match l with
    | [] => exact absurd rfl hne
    | [r] =>
      exact ⟨r, [], rfl, by
        intro y hy
        rcases List.mem_singleton.mp hy with rfl
        exact le_refl _, List.Perm.refl _⟩
    | a :: b :: rest =>
      have hperm := bubblePassUpto_perm (n + 1) (a :: b :: rest)
      show ∃ m t,
        (if a.Path.length < b.Path.length then b :: bubblePassUpto n (a :: rest)
          else a :: bubblePassUpto n (b :: rest)) = t ++ [m] ∧ _ ∧ _
      by_cases hcmp : a.Path.length < b.Path.length
      · obtain ⟨m, t, heq, hmin, -⟩ := ih (a :: rest)
          (by simp at hlen ⊢; omega) (by simp)
        refine ⟨m, b :: t, ?_, ?_, ?_⟩
        · rw [if_pos hcmp, heq]
          rfl
        · intro y hy
          have hma : m.Path.length ≤ a.Path.length :=
            hmin a (List.mem_cons_self a rest)
          rcases List.mem_cons.mp hy with rfl | hy'
          · exact hma
          · rcases List.mem_cons.mp hy' with rfl | hy''
            · omega
            · exact hmin y (List.mem_cons_of_mem a hy'')
        · exact hperm
      · obtain ⟨m, t, heq, hmin, -⟩ := ih (b :: rest)
          (by simp at hlen ⊢; omega) (by simp)
        refine ⟨m, a :: t, ?_, ?_, ?_⟩
        · rw [if_neg hcmp, heq]
          rfl
        · intro y hy
          have hmb : m.Path.length ≤ b.Path.length :=
            hmin b (List.mem_cons_self b rest)
          rcases List.mem_cons.mp hy with rfl | hy'
          · omega
          · rcases List.mem_cons.mp hy' with rfl | hy''
            · exact hmb
            · exact hmin y (List.mem_cons_of_mem b hy'')
        · exact hperm

theorem bubblePassUpto_append_front : ∀ (m : Nat) (f back : List RouteConfig),
    f.length = m + 1 →
    bubblePassUpto m (f ++ back) = bubblePassUpto m f ++ back := by
  intro m
  induction m with
  | zero =>
    intro f back hf
    match f with
    | [a] =>
      match back with
      | [] => rfl
      | c :: cs => rfl
  | succ m ih =>
    intro f back hf
    match f with
    | [a] => simp at hf
    | a :: c :: f2 =>
      have hfa : (a :: f2).length = m + 1 := by
        simp at hf ⊢
        omega
      have hfc : (c :: f2).length = m + 1 := by
        simp at hf ⊢
        omega
      show (if a.Path.length < c.Path.length then
          c :: bubblePassUpto m (a :: (f2 ++ back))
        else a :: bubblePassUpto m (c :: (f2 ++ back))) =
        (if a.Path.length < c.Path.length then c :: bubblePassUpto m (a :: f2)
          else a :: bubblePassUpto m (c :: f2)) ++ back
      by_cases hcmp : a.Path.length < c.Path.length
      · rw [if_pos hcmp, if_pos hcmp, List.cons_append,
          show a :: (f2 ++ back) = (a :: f2) ++ back from rfl,
          ih (a :: f2) back hfa]
      · rw [if_neg hcmp, if_neg hcmp, List.cons_append,
          show c :: (f2 ++ back) = (c :: f2) ++ back from rfl,
          ih (c :: f2) back hfc]

/-- The outer-loop invariant of the bubble sort: after `k` passes the
list splits into a front part and a `k`-element tail that is sorted
non-increasingly and bounded above by everything in the front. -/
def sortInv (l : List RouteConfig) (k : Nat) (cur : List RouteConfig) : Prop :=
  ∃ front back, cur = front ++ back ∧ back.length = k ∧ cur.Perm l ∧
    (∀ x ∈ front, ∀ y ∈ back, y.Path.length ≤ x.Path.length) ∧
    back.Pairwise (fun x y => y.Path.length ≤ x.Path.length)

theorem sortInv_step {l cur : List RouteConfig} {k : Nat}
    (hk : k < l.length - 1) (hinv : sortInv l k cur) :
    sortInv l (k + 1) (bubblePassUpto (l.length - 1 - k) cur) := by
  obtain ⟨front, back, rfl, hbl, hperm, hfb, hsort⟩ := hinv
  have hn : front.length + back.length = l.length := by
    have h := hperm.length_eq
    simpa using h
  have hfl : front.length = (l.length - 1 - k) + 1 := by omega
  rw [bubblePassUpto_append_front _ _ _ hfl]
  obtain ⟨m, t, heq, hmin, hpassperm⟩ :=
    bubblePassUpto_last_min (l.length - 1 - k) front (by omega)
      (by
        intro h
        rw [h] at hfl
        simp at hfl)
  rw [heq]
  have hpermfront : (t ++ [m]).Perm front := heq ▸ hpassperm
  have hmemfront : ∀ x ∈ t, x ∈ front := fun x hx =>
    hpermfront.mem_iff.mp (List.mem_append_left [m] hx)
  have hmfront : m ∈ front :=
    hpermfront.mem_iff.mp (List.mem_append_right t (List.mem_singleton_self m))
  refine ⟨t, m :: back, by simp, by simp [hbl], ?_, ?_, ?_⟩
  · exact (hpermfront.append_right back).trans hperm
  · intro x hx y hy
    rcases List.mem_cons.mp hy with rfl | hy'
    · exact hmin x (hmemfront x hx)
    · exact hfb x (hmemfront x hx) y hy'
  · exact List.pairwise_cons.mpr ⟨fun y hy => hfb m hmfront y hy, hsort⟩

theorem sortRoutes_fold_inv (l : List RouteConfig) :
    ∀ k, k ≤ l.length - 1 →
      sortInv l k ((List.range k).foldl
        (fun acc i => bubblePassUpto (l.length - 1 - i) acc) l) := by
  intro k
  induction k with
  | zero =>
    intro hk
    exact ⟨l, [], by simp, rfl, List.Perm.refl l, by simp, List.Pairwise.nil⟩
  | succ k ih =>
    intro hk
    rw [List.range_succ, List.foldl_append]
    simp only [List.foldl_cons, List.foldl_nil]
    exact sortInv_step (by omega) (ih (by omega))

/-- C5 (amended): the renderer is a function of the iteration order of
the routing map (two runs agree only when the Go map enumerations
agree), and within a host the emitted routes are a permutation of the
host's routes sorted by path length, longest first; ties keep their
encounter order — there is no lexicographic tie-break. -/
theorem sortRoutes_sorted_perm (l : List RouteConfig) :
    (sortRoutesByPathLength l).Perm l ∧
      (sortRoutesByPathLength l).Pairwise
        (fun x y => y.Path.length ≤ x.Path.length) := by
  have h := sortRoutes_fold_inv l (l.length - 1) (le_refl _)
  obtain ⟨front, back, heq, hbl, hperm, hfb, hsort⟩ := h
  have hfold : sortRoutesByPathLength l =
      (List.range (l.length - 1)).foldl
        (fun acc i => bubblePassUpto (l.length - 1 - i) acc) l := rfl
  rw [hfold, heq]
  rw [heq] at hperm
  refine ⟨hperm, ?_⟩
  have hn : front.length + back.length = l.length := by
    have h2 := hperm.length_eq
    simpa using h2
  match front with
  | [] => simpa using hsort
  | [f] =>
    refine List.pairwise_append.mpr ⟨List.pairwise_singleton _ _, hsort, ?_⟩
    intro x hx y hy
    rcases List.mem_singleton.mp hx with rfl
    exact hfb x (List.mem_singleton_self x) y hy
  | a :: b :: front2 =>
    exfalso
    simp at hn hbl
    omega

/-- Render a `GoStr` back into a Lean string for output building. -/
def tos (g : GoStr) : String := String.mk g

/-- `nginx.splitDomainPath`: split at the first `/` with positive index. -/
def splitDomainPath (domainPath : GoStr) : GoStr × GoStr :=
  match goIndex domainPath '/' with
  | some i =>
    if 0 < i then (domainPath.take i, domainPath.drop i) else (domainPath, [])
  | none => (domainPath, [])

/-- `nginx.formatUpstreamAddr`: bracket a bare IPv6 host, then append
the port. -/
def formatUpstreamAddr (up : Upstream) : GoStr :=
  let host :=
    if up.Host.contains ':' = true ∧ ¬ up.Host.head? = some '[' then
      '[' :: up.Host ++ [']']
    else up.Host
  host ++ ':' :: up.Port

/-- `ssl.FindCertificate`: exact lowercase match first, then one
wildcard pass over the map (a `*.SUFFIX` key matches hosts ending in
`.SUFFIX` other than the apex). -/
def FindCertificate (certMap : List (GoStr × Certificate)) (domain0 : GoStr) :
    Option Certificate :=
  let domain := goToLower (goTrimSpace domain0)
  match (certMap.find? (·.1 = domain)).map (·.2) with
  | some c => some c
  | none =>
    (certMap.find? (fun e =>
      (gs "*.").isPrefixOf e.1 &&
        ((e.1.drop 1).isSuffixOf domain &&
          !(decide (domain = e.1.drop 2))))).map (·.2)

/-- `nginx.generateCORSHeaders`: the built-in default block when no CORS
entry applies, else the block built from the entry with per-field
defaults. -/
def generateCORSHeaders (corsConfig : Option CORSConfig) : String :=
  match corsConfig with
  | none =>
    "            # CORS configuration\n            add_header \x27Access-Control-Allow-Origin\x27 \x27*\x27 always;\n            add_header \x27Access-Control-Allow-Methods\x27 \x27GET, HEAD, POST, PUT, DELETE, CONNECT, OPTIONS, TRACE, PATCH\x27 always;\n            add_header \x27Access-Control-Allow-Headers\x27 \x27DNT,User-Agent,X-Requested-With,If-Modified-Since,Cache-Control,Content-Type,Range,Authorization\x27 always;\n            add_header \x27Access-Control-Expose-Headers\x27 \x27Content-Length,Content-Range\x27 always;\n\n            # Handle OPTIONS preflight requests\n            if ($request_method = \x27OPTIONS\x27) \x7b\n                add_header \x27Access-Control-Max-Age\x27 1728000;\n                add_header \x27Content-Type\x27 \x27text/plain; charset=utf-8\x27;\n                add_header \x27Content-Length\x27 0;\n                return 204;\n            \x7d"
  | some cc =>
    let allowOrigin := if cc.AllowOrigin = "" then "*" else cc.AllowOrigin
    let allowMethods :=
      if cc.AllowMethods = [] then
        ["GET", "HEAD", "POST", "PUT", "DELETE", "CONNECT", "OPTIONS", "TRACE", "PATCH"]
      else cc.AllowMethods
    let methodsStr := String.intercalate ", " allowMethods
    let allowHeaders :=
      if cc.AllowHeaders = [] then
        ["DNT", "User-Agent", "X-Requested-With", "If-Modified-Since",
          "Cache-Control", "Content-Type", "Range", "Authorization"]
      else cc.AllowHeaders
    let headersStr := String.intercalate "," allowHeaders
    let exposeHeaders :=
      if cc.ExposeHeaders = [] then ["Content-Length", "Content-Range"]
      else cc.ExposeHeaders
    let exposeHeadersStr := String.intercalate "," exposeHeaders
    let maxAge := if cc.MaxAge = 0 then (1728000 : Int) else cc.MaxAge
    "            # CORS configuration\n" ++
      "            add_header \x27Access-Control-Allow-Origin\x27 \x27" ++ allowOrigin ++ "\x27 always;\n" ++
      "            add_header \x27Access-Control-Allow-Methods\x27 \x27" ++ methodsStr ++ "\x27 always;\n" ++
      "            add_header \x27Access-Control-Allow-Headers\x27 \x27" ++ headersStr ++ "\x27 always;\n" ++
      "            add_header \x27Access-Control-Expose-Headers\x27 \x27" ++ exposeHeadersStr ++ "\x27 always;\n" ++
      (if cc.AllowCredentials then
        "            add_header \x27Access-Control-Allow-Credentials\x27 \x27true\x27 always;\n"
      else "") ++
      "\n            # Handle OPTIONS preflight requests\n" ++
      "            if ($request_method = \x27OPTIONS\x27) \x7b\n" ++
      "                add_header \x27Access-Control-Allow-Origin\x27 \x27" ++ allowOrigin ++ "\x27 always;\n" ++
      "                add_header \x27Access-Control-Allow-Methods\x27 \x27" ++ methodsStr ++ "\x27 always;\n" ++
      "                add_header \x27Access-Control-Allow-Headers\x27 \x27" ++ headersStr ++ "\x27 always;\n" ++
      (if cc.AllowCredentials then
        "                add_header \x27Access-Control-Allow-Credentials\x27 \x27true\x27 always;\n"
      else "") ++
      "                add_header \x27Access-Control-Max-Age\x27 " ++ toString maxAge ++ " always;\n" ++
      "                add_header \x27Content-Type\x27 \x27text/plain; charset=utf-8\x27;\n" ++
      "                add_header \x27Content-Length\x27 0;\n" ++
      "                return 204;\n" ++
      "            \x7d"

/-- Appending a route under its base domain in the `domainRoutes` map
(modelled as an insertion-ordered association list). -/
def addRoute (acc : List (GoStr × List RouteConfig)) (base : GoStr)
    (rc : RouteConfig) : List (GoStr × List RouteConfig) :=
  match acc with
  | [] => [(base, [rc])]
  | e :: rest =>
    if e.1 = base then (e.1, e.2 ++ [rc]) :: rest
    else e :: addRoute rest base rc

/-- The route-grouping loop of `GenerateConfig`: parse each mapping key
and append a `RouteConfig` per domain path, grouped by base domain. -/
def buildDomainRoutes (ports : List (GoStr × List GoStr)) :
    List (GoStr × List RouteConfig) :=
  ports.foldl (fun acc pk =>
    let upstream := parseUpstream pk.1
    pk.2.foldl (fun acc2 domainPath =>
      let bp := splitDomainPath domainPath
      addRoute acc2 bp.1 ⟨upstream, domainPath, bp.1, bp.2⟩) acc) []

/-- The cert/no-cert partition loop of `GenerateConfig`. -/
def partitionByCert (certMap : List (GoStr × Certificate))
    (dr : List (GoStr × List RouteConfig)) : List GoStr × List GoStr :=
  dr.foldl (fun acc e =>
    match FindCertificate certMap e.1 with
    | some cert =>
      if cert.KeyPath ≠ [] then (acc.1 ++ [e.1], acc.2)
      else (acc.1, acc.2 ++ [e.1])
    | none => (acc.1, acc.2 ++ [e.1])) ([], [])

/-- One location block of `GenerateConfig` (with the exact-match
redirect and trailing-slash rewrite for non-root paths); the `secure`
flavour adds the cookie-Secure directive. -/
def renderRoute (secure : Bool) (corsHeaders : String) (route : RouteConfig) : String :=
  let upstreamAddr := formatUpstreamAddr route.Upstream
  let locationPath := if route.Path = [] then gs "/" else route.Path
  let proxyPass := tos route.Upstream.Scheme ++ "://" ++ tos upstreamAddr ++
    (if route.Upstream.Path ≠ [] then tos route.Upstream.Path else "")
  let redirectPart :=
    if ¬ locationPath = gs "/" then
      "        location = " ++ tos locationPath ++
        " \x7b\n            return 301 $scheme://$host" ++ tos locationPath ++
        "/;\n        \x7d\n\n"
    else ""
  let locationPath2 := if ¬ locationPath = gs "/" then locationPath ++ gs "/" else locationPath
  let proxyPass2 :=
    if ¬ locationPath = gs "/" then
      (if ¬ proxyPass.endsWith "/" then proxyPass ++ "/" else proxyPass)
    else proxyPass
  redirectPart ++
    "        location " ++ tos locationPath2 ++ " \x7b\n            proxy_pass " ++
    proxyPass2 ++
    ";\n            proxy_http_version 1.1;\n\n            # Standard proxy headers\n            proxy_set_header Host $host;\n            proxy_set_header X-Real-IP $remote_addr;\n            proxy_set_header X-Forwarded-For $proxy_add_x_forwarded_for;\n            proxy_set_header X-Forwarded-Host $http_host;\n            proxy_set_header X-Forwarded-Proto $scheme;\n\n            # WebSocket support\n            proxy_set_header Upgrade $http_upgrade;\n            proxy_set_header Connection \"upgrade\";\n" ++
    (if secure then
      "\n            # Set Secure flag for cookies when using HTTPS\n            proxy_cookie_path / \"/; Secure\";\n"
    else "") ++
    "\n            # Timeouts\n            proxy_connect_timeout 60s;\n            proxy_send_timeout 60s;\n            proxy_read_timeout 60s;\n\n" ++
    corsHeaders ++ "\n        \x7d\n\n"

/-- One per-domain server block of `GenerateConfig`: an HTTP-only block
when the host has no usable certificate, else an HTTPS block using the
selected certificate's paths; routes are bubble-sorted by path length
first. -/
def renderServerBlock (certMap : List (GoStr × Certificate))
    (cors : List (String × CORSConfig)) (httpPort httpsPort : String)
    (e : GoStr × List RouteConfig) : String :=
  let baseDomain := e.1
  let cert0 := FindCertificate certMap baseDomain
  let hasCert : Bool :=
    match cert0 with
    | some c => decide (c.KeyPath ≠ [])
    | none => false
  let corsHeaders := generateCORSHeaders (getCORSConfig cors (tos baseDomain))
  if hasCert = false then
    "    # HTTP server block for " ++ tos baseDomain ++
      " (no SSL)\n    server \x7b\n        listen " ++ httpPort ++
      ";\n        server_name " ++ tos baseDomain ++ ";\n\n" ++
      String.join ((sortRoutesByPathLength e.2).map (renderRoute false corsHeaders)) ++
      "    \x7d\n\n"
  else
    let cert := cert0.getD ⟨[], [], 0⟩
    "    # HTTPS server block for " ++ tos baseDomain ++
      "\n    server \x7b\n        listen " ++ httpsPort ++
      " ssl;\n        server_name " ++ tos baseDomain ++
      ";\n        ssl_certificate " ++ tos cert.CertPath ++
      ";\n        ssl_certificate_key " ++ tos cert.KeyPath ++
      ";\n\n        ssl_protocols TLSv1.2 TLSv1.3;\n        ssl_ciphers HIGH:!aNULL:!MD5;\n        ssl_prefer_server_ciphers on;\n\n" ++
      String.join ((sortRoutesByPathLength e.2).map (renderRoute true corsHeaders)) ++
      "    \x7d\n\n"

/-- `nginx.GenerateConfig`.  Go map iterations are modelled by the list
order of `ports` and of the derived `domainRoutes`; the listen ports are
the environment-derived values the source reads at the top of the
function. -/
def generateConfig (ports : List (GoStr × List GoStr))
    (certMap : List (GoStr × Certificate)) (cors : List (String × CORSConfig))
    (httpPort httpsPort : String) : String :=
  let domainRoutes := buildDomainRoutes ports
  let parts := partitionByCert certMap domainRoutes
  let domainsWithCerts := parts.1
  let domainsWithoutCerts := parts.2
  "user nginx;\nworker_processes auto;\nerror_log stderr warn;\npid /var/run/nginx.pid;\n\nevents \x7b\n    worker_connections 1024;\n\x7d\n\nhttp \x7b\n    include /etc/nginx/mime.types;\n    default_type application/octet-stream;\n\n    # Custom log format without timestamp (handled by logger)\n    # Includes upstream response details\n    log_format sslly \x27$remote_addr - $remote_user \"$request\" \x27\n                     \x27$status $body_bytes_sent \"$http_referer\" \x27\n                     \x27\"$http_user_agent\" \"$http_x_forwarded_for\" \x27\n                     \x27upstream: $upstream_addr $upstream_status $upstream_response_time\x27;\n\n    access_log /dev/stdout sslly;\n\n    sendfile on;\n    tcp_nopush on;\n    tcp_nodelay on;\n    keepalive_timeout 65;\n    types_hash_max_size 2048;\n\n    # Enable HTTP/2\n    http2 on;\n\n    # Allow large file uploads\n    client_max_body_size 100M;\n\n    # Proxy buffer settings\n    proxy_buffering on;\n    proxy_buffer_size 4k;\n    proxy_buffers 8 4k;\n    proxy_busy_buffers_size 8k;\n\n" ++
    (if domainsWithCerts ≠ [] then
      "    # HTTP to HTTPS redirect for domains with certificates\n    server \x7b\n        listen " ++
        httpPort ++ ";\n        server_name " ++
        String.intercalate " " (domainsWithCerts.map tos) ++
        ";\n\n        location / \x7b\n            return 301 https://$host$request_uri;\n        \x7d\n    \x7d\n\n"
    else "") ++
    (if domainsWithoutCerts ≠ [] then
      "    # HTTPS to HTTP redirect for domains without certificates\n    server \x7b\n        listen " ++
        httpsPort ++ " ssl;\n        server_name " ++
        String.intercalate " " (domainsWithoutCerts.map tos) ++
        ";\n\n        # Use a dummy self-signed certificate\n        ssl_certificate /etc/nginx/ssl/dummy.crt;\n        ssl_certificate_key /etc/nginx/ssl/dummy.key;\n\n        ssl_protocols TLSv1.2 TLSv1.3;\n        ssl_ciphers HIGH:!aNULL:!MD5;\n\n        location / \x7b\n            return 301 http://$host$request_uri;\n        \x7d\n    \x7d\n\n"
    else "") ++
    String.join (domainRoutes.map (renderServerBlock certMap cors httpPort httpsPort)) ++
    "\x7d\n"

/-- Two enumeration orders of the same two-entry routing map. -/
def portsEnc1 : List (GoStr × List GoStr) :=
  [(gs "1111", [gs "a.com"]), (gs "2222", [gs "b.com"])]

def portsEnc2 : List (GoStr × List GoStr) :=
  [(gs "2222", [gs "b.com"]), (gs "1111", [gs "a.com"])]

set_option maxRecDepth 40000 in
/-- C5 (counterexample): rendering the same routing table under two
admissible Go map iteration orders produces different bytes — the server
blocks (and the fallback `server_name` list) follow the iteration order,
so two runs of the renderer need not agree byte-for-byte. -/
theorem generateConfig_not_deterministic_cex :
    portsEnc1.Perm portsEnc2 ∧
      generateConfig portsEnc1 [] [] "80" "443" ≠
        generateConfig portsEnc2 [] [] "80" "443" := by
  refine ⟨List.Perm.swap _ _ [], fun h => ?_⟩
  have h2 : (generateConfig portsEnc1 [] [] "80" "443").data.take 1100 =
      (generateConfig portsEnc2 [] [] "80" "443").data.take 1100 := by rw [h]
  exact absurd h2 (by decide)

end SsllyNginx
